import Mathlib

/-!
A shallow embedding of `techshell.c`.

The development models the tokenizer (`parse_line`), the pipeline engine
(`execute_pipeline`, `count_pipes`) and the redirection resolver
(`handle_redirection`) of the shell, together with the part of the operating
system they talk to: per-process descriptor tables, `pipe`, `fork`, `open`,
`dup2`, `close` and `wait`.

Conventions.
* A `char *` is an `Option String`; `none` is the NULL pointer.
* A `char **` pointing into an array is the list of the cells from the pointer
  onwards (`Cells`); `args++` is `List.drop 1`.  The array `parse_line` fills
  is `cells tokens stale`: the tokens, the NULL terminator, and the cells
  beyond it with whatever they held.
* `fork` copies memory and the descriptor table: the child code runs on the
  values the parent has at the fork, and nothing it does reaches the parent.
* Results of system calls that the program cannot determine (does `pipe`
  succeed, which pid does `fork` return, can a path be opened) come from an
  environment record `Env`.  `open` of a NULL path fails (`EFAULT`).
* Reading through a NULL pointer or past the end of the array is undefined
  behaviour (a segmentation fault in practice); the child code then ends in
  `fault`, which is neither `execvp` nor `_exit`.
* `wait` blocks until a child has terminated and returns its pid; which
  child terminates first, and whether a signal cuts the call short, is the
  environment's choice.
-/

set_option maxRecDepth 100000

namespace TechShell

/-! ## Constants -/

/-- Size of the line buffer of `main` (`#define MAX_LINE 1024`). -/
def MAX_LINE : Nat := 1024

/-- Number of cells of the argument array of `main` (`#define MAX_ARGS 128`). -/
def MAX_ARGS : Nat := 128

/-- Descriptor number of standard input. -/
def STDIN_FILENO : Nat := 0

/-- Descriptor number of standard output. -/
def STDOUT_FILENO : Nat := 1

/-- The cells of a `char *` array, from some pointer onwards. -/
abbrev Cells := List (Option String)

/-! ## Tokenizer -/

/-- One call of `strtok(_, " ")` on the text that starts at the saved pointer:
leading spaces are skipped; if nothing is left the call returns NULL (`none`);
otherwise the token is the longest run of characters other than the space, the
delimiter that ends it (if any) is overwritten by NUL, and the saved pointer
moves just past it. -/
def strtok (s : List Char) : Option (List Char × List Char) :=
  match s.dropWhile (fun c => c == ' ') with
  | [] => none
  | c :: cs =>
    some ((c :: cs).takeWhile (fun d => d != ' '),
          ((c :: cs).dropWhile (fun d => d != ' ')).drop 1)

/-- The successive non-NULL results of `strtok(line, " ")`, `strtok(NULL, " ")`,
... up to the first NULL result.  Every successful call consumes at least one
character, so `n = s.length` calls are always enough (`strtok_all_fuel`). -/
def strtok_all : Nat → List Char → List (List Char)
  | 0, _ => []
  | n + 1, s =>
    match strtok s with
    | none => []
    | some (token, rest) => token :: strtok_all n rest

/-- The store `a[i] = v` into an array of `a.length` cells.  A store outside
the array is undefined behaviour and is reported as `none`. -/
def store (a : Cells) (i : Nat) (v : Option String) : Option Cells :=
  if i < a.length then some (a.set i v) else none

/-- What `parse_line` hands back to `main`: the argument array, the returned
count and the value left in `*background`. -/
structure Parsed where
  args : Cells
  argc : Nat
  background : Bool
deriving DecidableEq, Repr

/-- The `while (token != NULL)` loop of `parse_line`, run over the successive
tokens delivered by `strtok`, followed by the store `args[argc] = NULL`. -/
def parse_loop : List (List Char) → Cells → Nat → Bool → Option Parsed
  | [], args, argc, background =>
    match store args argc none with
    | none => none
    | some args1 => some ⟨args1, argc, background⟩
  | token :: more, args, argc, background =>
    if String.mk token = "&" then
      parse_loop more args argc true
    else
      match store args argc (some (String.mk token)) with
      | none => none
      | some args1 => parse_loop more args1 (argc + 1) background

/-- Model of `parse_line(line, args, &background)`.  `args` is the array the
caller passes (with whatever it held before), `background` the value of the
flag before the call.  The result is `none` when a store falls outside the
array. -/
def parse_line (line : String) (args : Cells) (background : Bool) : Option Parsed :=
  parse_loop (strtok_all line.data.length line.data) args 0 background

/-- The array `main` passes to `parse_line`: `MAX_ARGS` cells. -/
def fresh_args : Cells := List.replicate MAX_ARGS none

/-! ## Descriptor tables and system calls -/

/-- What an open descriptor refers to. -/
inductive FObj
  /-- An open file the shell already held when `execute_pipeline` was entered. -/
  | inherited (n : Nat)
  /-- Read end of the pipe created in loop iteration `i`. -/
  | pipeR (i : Nat)
  /-- Write end of the pipe created in loop iteration `i`. -/
  | pipeW (i : Nat)
  /-- Result of `open(path, O_RDONLY)`. -/
  | fileR (path : String)
  /-- Result of `open(path, O_WRONLY | O_CREAT | O_TRUNC, 0644)`. -/
  | fileW (path : String)
deriving DecidableEq, Repr

/-- The descriptor table of one process: cell `fd` is `none` when descriptor
`fd` is closed.  Descriptors beyond the end of the list are closed. -/
abbrev FdTable := List (Option FObj)

/-- The entry of descriptor `fd`. -/
def look : FdTable → Nat → Option FObj
  | [], _ => none
  | x :: _, 0 => x
  | _ :: t, n + 1 => look t n

/-- Overwrite the entry of descriptor `fd`. -/
def put : FdTable → Nat → Option FObj → FdTable
  | [], 0, v => [v]
  | [], n + 1, v => none :: put [] n v
  | _ :: t, 0, v => v :: t
  | x :: t, n + 1, v => x :: put t n v

/-- The lowest-numbered closed descriptor, the one `open` and `pipe` hand out. -/
def lowest_free : FdTable → Nat
  | [] => 0
  | none :: _ => 0
  | some _ :: t => lowest_free t + 1

/-- The call `close(fd)`; closing a closed descriptor changes nothing. -/
def sys_close (t : FdTable) (fd : Nat) : FdTable := put t fd none

/-- The call `dup2(oldfd, newfd)`; with `oldfd` closed it fails and changes
nothing. -/
def sys_dup2 (t : FdTable) (oldfd newfd : Nat) : FdTable :=
  match look t oldfd with
  | none => t
  | some o => put t newfd (some o)

/-- A successful `pipe(fd)` in loop iteration `i`: the read end takes the lowest
free descriptor, the write end the next one.  Returns the table and
`(fd[0], fd[1])`. -/
def sys_pipe (t : FdTable) (i : Nat) : FdTable × (Nat × Nat) :=
  let r := lowest_free t
  let t1 := put t r (some (FObj.pipeR i))
  let w := lowest_free t1
  (put t1 w (some (FObj.pipeW i)), (r, w))

/-- The answers of the operating system that the program does not determine. -/
structure Env where
  /-- Whether the `pipe` call of loop iteration `i` succeeds. -/
  pipe_ok : Nat → Bool
  /-- The pid `fork` returns to the parent in loop iteration `i`; `none` when
  the call fails. -/
  fork_pid : Nat → Option Nat
  /-- Whether `open(path, O_RDONLY)` succeeds. -/
  can_read : String → Bool
  /-- Whether `open(path, O_WRONLY | O_CREAT | O_TRUNC, 0644)` succeeds. -/
  can_write : String → Bool
  /-- Whether the `n`-th call of `wait` made by `execute_pipeline` is cut short
  by a signal and returns `-1` (`EINTR`): `main` installs its `SIGINT` handler
  with `sa_flags = 0`, so a blocked `wait` is not restarted. -/
  wait_interrupted : Nat → Bool
  /-- Which of the children outstanding at the `n`-th call of `wait` is the
  one whose termination the call reports, as a position in the list of
  outstanding children (taken modulo its length): the order in which children
  terminate is not the order in which they were forked. -/
  wait_pick : Nat → List Nat → Nat

/-- The call `open(path, ...)`: with a NULL path, or when the environment says
the path cannot be opened, it fails (`none`); otherwise the new descriptor is
the lowest free one. -/
def sys_open (allowed : String → Bool) (mk : String → FObj)
    (path : Option String) (t : FdTable) : Option (FdTable × Nat) :=
  match path with
  | none => none
  | some p =>
    if allowed p then some (put t (lowest_free t) (some (mk p)), lowest_free t) else none

/-! ## Redirection -/

/-- How one of the two `if` blocks in the body of the loop of
`handle_redirection` ends. -/
inductive Step
  /-- The block is left normally; `cur` is `args[i]` as it now stands. -/
  | next (cur : Option String) (fds : FdTable)
  /-- The child called `_exit(status)`. -/
  | exited (status : Nat)
  /-- The child read through a NULL pointer or past the end of the array. -/
  | fault
deriving DecidableEq, Repr

/-- The block `if (strcmp(args[i], "<") == 0) { ... }`; `cur` is `args[i]`
and `rest` the cells from `args[i + 1]` on. -/
def input_block (env : Env) (cur : String) (rest : Cells) (fds : FdTable) : Step :=
  if cur = "<" then
    match rest with
    | [] => Step.fault
    | path :: _ =>
      match sys_open env.can_read FObj.fileR path fds with
      | none => Step.exited 1
      | some (fds1, fd) =>
        Step.next none (sys_close (sys_dup2 fds1 fd STDIN_FILENO) fd)
  else
    Step.next (some cur) fds

/-- The block `if (strcmp(args[i], ">") == 0) { ... }`; `cur` is `args[i]`
as the first block left it, and `strcmp` reads through it. -/
def output_block (env : Env) (cur : Option String) (rest : Cells) (fds : FdTable) : Step :=
  match cur with
  | none => Step.fault
  | some c =>
    if c = ">" then
      match rest with
      | [] => Step.fault
      | path :: _ =>
        match sys_open env.can_write FObj.fileW path fds with
        | none => Step.exited 1
        | some (fds1, fd) =>
          Step.next none (sys_close (sys_dup2 fds1 fd STDOUT_FILENO) fd)
    else
      Step.next (some c) fds

/-- How `handle_redirection` ends. -/
inductive Redirected
  /-- It returned; `args` is the array as it left it. -/
  | done (args : Cells) (fds : FdTable)
  /-- The child called `_exit(status)`. -/
  | exited (status : Nat)
  /-- The child read through a NULL pointer or past the end of the array. -/
  | fault
deriving DecidableEq, Repr

/-- The loop `for (i = 0; args[i] != NULL; i++)` of `handle_redirection`, at
index `i`: `seen` is `args[0 .. i)` as it now stands, the second list is
`args[i ..]`. -/
def handle_redirection_from (env : Env) : Cells → Cells → FdTable → Redirected
  | _, [], _ => Redirected.fault
  | seen, none :: rest, fds => Redirected.done (seen ++ none :: rest) fds
  | seen, some t :: rest, fds =>
    match input_block env t rest fds with
    | Step.exited s => Redirected.exited s
    | Step.fault => Redirected.fault
    | Step.next cur fds1 =>
      match output_block env cur rest fds1 with
      | Step.exited s => Redirected.exited s
      | Step.fault => Redirected.fault
      | Step.next cur2 fds2 => handle_redirection_from env (seen ++ [cur2]) rest fds2

/-- Model of `handle_redirection(args)` run in a process with table `fds`. -/
def handle_redirection (env : Env) (args : Cells) (fds : FdTable) : Redirected :=
  handle_redirection_from env [] args fds

/-! ## Pipeline execution -/

/-- Model of `count_pipes(args)`. -/
def count_pipes : Cells → Nat
  | some t :: rest => (if t = "|" then 1 else 0) + count_pipes rest
  | _ => 0

/-- The loop of the child that overwrites the first `|` of its copy of the
array by NULL: `for (j = 0; args[j] != NULL; j++) if (...) { args[j] = NULL; break; }`. -/
def cut_at_pipe : Cells → Cells
  | some t :: rest => if t = "|" then none :: rest else some t :: cut_at_pipe rest
  | other => other

/-- The argument vector `execvp` reads: the cells up to the first NULL. -/
def argv_of : Cells → List String
  | some t :: rest => t :: argv_of rest
  | _ => []

/-- How the code run by a forked child ends. -/
inductive Outcome
  /-- The child reached `execvp(args[0], args)`; `file` is `args[0]`, `argv`
  the vector up to its NULL, `fds` the descriptor table at that point. -/
  | exec (file : Option String) (argv : List String) (fds : FdTable)
  /-- The child called `_exit(status)` before `execvp`. -/
  | exited (status : Nat)
  /-- The child read through a NULL pointer or past the end of the array. -/
  | fault
deriving DecidableEq, Repr

/-- The branch `if (pid == 0) { ... }` up to the call of `execvp`, run on the
child's copy of the parent's memory and descriptor table. -/
def child (env : Env) (i pipe_count in_fd : Nat) (fd : Nat × Nat)
    (args : Cells) (fds : FdTable) : Outcome :=
  let fds1 := if in_fd ≠ STDIN_FILENO then
      sys_close (sys_dup2 fds in_fd STDIN_FILENO) in_fd else fds
  let fds2 := if i < pipe_count then
      sys_close (sys_close (sys_dup2 fds1 fd.2 STDOUT_FILENO) fd.1) fd.2 else fds1
  match handle_redirection env (cut_at_pipe args) fds2 with
  | Redirected.done args1 fds3 =>
    match args1 with
    | [] => Outcome.fault
    | file :: _ => Outcome.exec file (argv_of args1) fds3
  | Redirected.exited s => Outcome.exited s
  | Redirected.fault => Outcome.fault

/-- A process created by `fork`. -/
structure Child where
  /-- The loop index `i` at which it was forked. -/
  stage : Nat
  /-- Its pid. -/
  pid : Nat
  /-- How its code ends. -/
  outcome : Outcome
deriving DecidableEq, Repr

/-- The state of the shell process inside `execute_pipeline`: its local
variables, its descriptor table, the children it has not waited for, and a log
of the pipes created, the processes forked and the processes reaped. -/
structure Run where
  /-- The pointer `args`. -/
  args : Cells
  /-- The variable `in_fd`. -/
  in_fd : Nat
  /-- The array `fd[2]`; not initialised, and not read before `pipe` fills it. -/
  fd : Nat × Nat
  /-- The descriptor table of the shell. -/
  fds : FdTable
  /-- Pids of the children of the shell not yet collected by `wait`. -/
  children : List Nat
  /-- Log: `(fd[0], fd[1])` of every successful `pipe`. -/
  pipes : List (Nat × Nat)
  /-- Log: every process forked, in order. -/
  spawned : List Child
  /-- Log: every pid returned by `wait`, in order; `wait` returns a pid only
  once that child has terminated. -/
  reaped : List Nat
  /-- Whether the function left through one of the two `return` statements in
  the loop. -/
  returned_early : Bool
deriving DecidableEq, Repr

/-- The loop `while (*args != NULL && strcmp(*args, "|") != 0) args++;`. -/
def skip_command : Cells → Cells
  | some t :: rest => if t = "|" then some t :: rest else skip_command rest
  | other => other

/-- One iteration of the loop `for (i = 0; i <= pipe_count; i++)`, in the
parent; the child forked in it is run to its end and logged. -/
def spawn_step (env : Env) (pipe_count i : Nat) (s : Run) : Run :=
  if i < pipe_count ∧ env.pipe_ok i = false then
    { s with returned_early := true }
  else
    let s1 : Run := if i < pipe_count then
        { s with fds := (sys_pipe s.fds i).1, fd := (sys_pipe s.fds i).2,
                 pipes := s.pipes ++ [(sys_pipe s.fds i).2] }
      else s
    match env.fork_pid i with
    | none => { s1 with returned_early := true }
    | some pid =>
      let kid := child env i pipe_count s1.in_fd s1.fd s1.args s1.fds
      let fds2 := if s1.in_fd ≠ STDIN_FILENO then sys_close s1.fds s1.in_fd else s1.fds
      { s1 with
        args := (skip_command s1.args).drop 1
        in_fd := if i < pipe_count then s1.fd.1 else s1.in_fd
        fds := if i < pipe_count then sys_close fds2 s1.fd.2 else fds2
        children := s1.children ++ [pid]
        spawned := s1.spawned ++ [⟨i, pid, kid⟩] }

/-- The loop `for (i = 0; i <= pipe_count; i++)` with `n` iterations left,
`n = pipe_count + 1 - i`. -/
def spawn_loop (env : Env) (pipe_count : Nat) : Nat → Nat → Run → Run
  | 0, _, s => s
  | n + 1, i, s =>
    let s1 := spawn_step env pipe_count i s
    if s1.returned_early then s1 else spawn_loop env pipe_count n (i + 1) s1

/-- The loop `while (wait(NULL) > 0) {}`, from its `n`-th call of `wait` on.
`outstanding` are the children of the shell not yet collected, `reaped` the
pids `wait` has returned so far.  A call made with no child outstanding
returns `-1` (`ECHILD`) and ends the loop; a call cut short by a signal
returns `-1` (`EINTR`) and ends the loop with children still outstanding;
any other call blocks until a child has terminated, and returns the pid of
the terminated child the environment designates, which is then no longer
outstanding.  The first argument counts the calls that can still collect a
child: at most one per outstanding child.  Returns the children left
outstanding and the pids collected. -/
def wait_loop (env : Env) : Nat → Nat → List Nat → List Nat → List Nat × List Nat
  | 0, _, outstanding, reaped => (outstanding, reaped)
  | _ + 1, _, [], reaped => ([], reaped)
  | left + 1, n, pid :: others, reaped =>
    if env.wait_interrupted n then (pid :: others, reaped)
    else
      wait_loop env left (n + 1)
        ((pid :: others).eraseIdx (env.wait_pick n (pid :: others) % (pid :: others).length))
        (reaped ++ [(pid :: others).getD
          (env.wait_pick n (pid :: others) % (pid :: others).length) pid])

/-- The state in which `execute_pipeline` enters its loop: `in_fd` is
`STDIN_FILENO`, `fd[2]` is not initialised, the logs are empty. -/
def entry_state (args : Cells) (fds : FdTable) (children : List Nat) : Run :=
  { args := args, in_fd := STDIN_FILENO, fd := (0, 0), fds := fds,
    children := children, pipes := [], spawned := [], reaped := [],
    returned_early := false }

/-- Model of `execute_pipeline(args, background)` called by a shell whose
descriptor table is `fds` and whose children not yet waited for are
`children`. -/
def execute_pipeline (env : Env) (args : Cells) (background : Bool)
    (fds : FdTable) (children : List Nat) : Run :=
  let pipe_count := count_pipes args
  let s := spawn_loop env pipe_count (pipe_count + 1) 0 (entry_state args fds children)
  if s.returned_early then s
  else if background then s
  else
    { s with
      reaped := (wait_loop env s.children.length 0 s.children s.reaped).2
      children := (wait_loop env s.children.length 0 s.children s.reaped).1 }

/-- The array `parse_line` leaves for a token sequence: the tokens, the NULL
terminator, and whatever the array held beyond it. -/
def cells (tokens : List String) (stale : Cells) : Cells :=
  tokens.map some ++ none :: stale

/-- An environment in which every `pipe` and `fork` succeeds (the child forked
in iteration `i` gets pid `100 + i`), every path can be opened, no `wait` is
interrupted, and the outstanding children terminate in the order in which
they are listed. -/
def env_ok : Env :=
  { pipe_ok := fun _ => true, fork_pid := fun i => some (100 + i),
    can_read := fun _ => true, can_write := fun _ => true,
    wait_interrupted := fun _ => false, wait_pick := fun _ _ => 0 }

/-- The environment `env_ok`, except that the children terminate in the
reverse of the order in which they are listed: `wait` reports the last
outstanding child first. -/
def env_last_first : Env :=
  { env_ok with wait_pick := fun _ outstanding => outstanding.length - 1 }

/-- The environment `env_ok`, except that a `SIGINT` reaches the shell while
it is blocked in its first `wait`. -/
def env_sigint : Env :=
  { env_ok with wait_interrupted := fun n => n == 0 }

/-- The descriptor table of the shell when it enters `execute_pipeline`:
`entry` lists, descriptor by descriptor, the open file it holds (`none` for a
closed descriptor).  None of them is an end of a pipe of the pipeline about to
be built. -/
def inherited_table (entry : List (Option Nat)) : FdTable :=
  entry.map (Option.map FObj.inherited)

/-- A descriptor table with standard input, output and error open. -/
def tty : FdTable := inherited_table [some 0, some 1, some 2]

/-! ## Reference notions used in the statements -/

/-- The non-empty tokens of a line delimited by the space character. -/
def space_tokens (line : String) : List String :=
  ((line.data.splitOnP (fun c => c == ' ')).filter (fun t => t ≠ [])).map String.mk

/-- The non-empty tokens of a line delimited by white space (space, tab,
carriage return, newline). -/
def whitespace_tokens (line : String) : List String :=
  ((line.data.splitOnP Char.isWhitespace).filter (fun t => t ≠ [])).map String.mk

/-- The call a child makes when it reaches `execvp`: the program name
`args[0]` and the argument vector. -/
def Outcome.call : Outcome → Option (Option String × List String)
  | Outcome.exec file argv _ => some (file, argv)
  | _ => none

/-- A token sequence has an empty stage in one of the three places where a
pipe marker produces one: a pipe marker first, a pipe marker last, or two pipe
markers in a row. -/
def has_empty_stage (tokens : List String) : Bool :=
  decide (tokens.head? = some "|") || decide (tokens.getLast? = some "|")
    || decide (["|", "|"] <:+: tokens)

/-- A stage's token list with every redirection operator and its filename
operand removed, all other tokens kept in order. -/
def strip_redirections : List String → List String
  | [] => []
  | [t] => if t = "<" ∨ t = ">" then [] else [t]
  | t :: u :: rest =>
    if t = "<" ∨ t = ">" then strip_redirections rest else t :: strip_redirections (u :: rest)

/-- The token that follows the last `>` of a stage's token list, if any. -/
def last_out_target : List String → Option String
  | [] => none
  | t :: rest =>
    match last_out_target rest with
    | some g => some g
    | none => if t = ">" then rest.head? else none

/-- A line of 128 one-letter tokens separated by single spaces (255
characters). -/
def long_line : String := String.intercalate " " (List.replicate 128 "a")

/-! ## Tokenizer: proofs -/

theorem split_spaces_cons_space (s : List Char) :
    ((' ' :: s).splitOnP (fun c => c == ' ')).filter (fun t => t ≠ [])
      = (s.splitOnP (fun c => c == ' ')).filter (fun t => t ≠ []) := by
  rw [List.splitOnP_cons]
  simp

theorem split_spaces_dropWhile (s : List Char) :
    ((s.dropWhile (fun c => c == ' ')).splitOnP (fun c => c == ' ')).filter (fun t => t ≠ [])
      = (s.splitOnP (fun c => c == ' ')).filter (fun t => t ≠ []) := by
  induction s with
  | nil => rfl
  | cons c cs ih =>
    by_cases h : c = ' '
    · subst h
      rw [split_spaces_cons_space]
      rw [List.dropWhile_cons]
      simpa using ih
    · rw [List.dropWhile_cons]
      simp [h]

theorem strtok_nil : strtok [] = none := rfl

theorem strtok_all_nil (n : Nat) : strtok_all n [] = [] := by
  cases n <;> rfl

theorem strtok_all_fuel (n : Nat) (s : List Char) (h : s.length ≤ n) :
    strtok_all n s = (s.splitOnP (fun c => c == ' ')).filter (fun t => t ≠ []) := by
  induction n generalizing s with
  | zero =>
    have : s = [] := List.length_eq_zero.mp (Nat.le_zero.mp h)
    subst this
    rfl
  | succ n ih =>
    rw [← split_spaces_dropWhile s]
    have hlen : (s.dropWhile (fun c => c == ' ')).length ≤ s.length :=
      (List.dropWhile_sublist _).length_le
    simp only [strtok_all, strtok]
    cases hd : s.dropWhile (fun c => c == ' ') with
    | nil => rfl
    | cons c cs =>
      have hc : (c == ' ') = false := by
        have := List.head_dropWhile_not (fun c => c == ' ') s (by simp [hd])
        simpa [hd] using this
      simp only []
      have hsplit : c :: cs = (c :: cs).takeWhile (fun d => d != ' ')
          ++ (c :: cs).dropWhile (fun d => d != ' ') := (List.takeWhile_append_dropWhile _ _).symm
      have htok : (c :: cs).takeWhile (fun d => d != ' ') ≠ [] := by
        rw [List.takeWhile_cons]
        simp [bne, hc]
      have hno : ∀ x ∈ (c :: cs).takeWhile (fun d => d != ' '), ¬ ((x == ' ') = true) := by
        intro x hx
        have := List.mem_takeWhile_imp hx
        simpa using this
      cases hr : (c :: cs).dropWhile (fun d => d != ' ') with
      | nil =>
        rw [hr, List.append_nil] at hsplit
        rw [List.drop_nil, strtok_all_nil]
        conv_rhs => rw [hsplit]
        rw [List.splitOnP_eq_single _ _ hno]
        simp [htok]
      | cons d ds =>
        have hd' : (d == ' ') = true := by
          have := List.head_dropWhile_not (fun d => d != ' ') (c :: cs) (by simp [hr])
          simpa [hr] using this
        rw [hr] at hsplit
        have hds : ds.length ≤ n := by
          have h1 : (c :: cs).length = ((c :: cs).takeWhile (fun d => d != ' ')).length
              + (d :: ds).length := by
            conv_lhs => rw [hsplit]
            simp
          rw [hd] at hlen
          simp only [List.length_cons] at h1 hlen h
          omega
        rw [List.drop_one, List.tail_cons, ih ds hds]
        conv_rhs => rw [hsplit]
        rw [List.splitOnP_first _ _ hno d hd']
        simp [htok]

theorem store_in_bounds (a : Cells) (i : Nat) (v : Option String) (h : i < a.length) :
    store a i v = some (a.take i ++ v :: a.drop (i + 1)) := by
  simp [store, h, List.set_eq_take_append_cons_drop]

theorem store_length (a : Cells) (i : Nat) (v : Option String) (h : i < a.length) :
    (a.take i ++ v :: a.drop (i + 1)).length = a.length := by
  simp only [List.length_append, List.length_take, List.length_cons, List.length_drop]
  omega

theorem parse_loop_fits (toks : List (List Char)) (args : Cells) (argc : Nat) (bg : Bool)
    (h : argc + ((toks.map String.mk).filter (fun t => t ≠ "&")).length < args.length) :
    parse_loop toks args argc bg
      = some ⟨args.take argc ++ (((toks.map String.mk).filter (fun t => t ≠ "&")).map some
                ++ none :: args.drop
                  (argc + ((toks.map String.mk).filter (fun t => t ≠ "&")).length + 1)),
              argc + ((toks.map String.mk).filter (fun t => t ≠ "&")).length,
              bg || decide ("&" ∈ toks.map String.mk)⟩ := by
  induction toks generalizing args argc bg with
  | nil =>
    simp only [List.map_nil, List.filter_nil, List.length_nil, Nat.add_zero] at h
    simp [parse_loop, store_in_bounds _ _ _ h]
  | cons t ts ih =>
    by_cases ht : String.mk t = "&"
    · have hf : ((t :: ts).map String.mk).filter (fun t => t ≠ "&")
          = (ts.map String.mk).filter (fun t => t ≠ "&") := by
        simp [ht]
      rw [hf] at h ⊢
      simp only [parse_loop, ht, if_true]
      rw [ih args argc true h]
      simp [ht]
    · have hf : ((t :: ts).map String.mk).filter (fun t => t ≠ "&")
          = String.mk t :: (ts.map String.mk).filter (fun t => t ≠ "&") := by
        simp [ht]
      rw [hf] at h ⊢
      simp only [List.length_cons] at h
      have hlt : argc < args.length := by omega
      simp only [parse_loop, ht, if_false, store_in_bounds _ _ _ hlt]
      have hlen := store_length args argc (some (String.mk t)) hlt
      rw [ih _ (argc + 1) bg (by rw [hlen]; omega)]
      have htake : (args.take argc ++ some (String.mk t) :: args.drop (argc + 1)).take (argc + 1)
          = args.take argc ++ [some (String.mk t)] := by
        rw [List.take_append_eq_append_take]
        simp [List.length_take, Nat.min_eq_left (Nat.le_of_lt hlt)]
      have hdrop : ∀ k, (args.take argc ++ some (String.mk t) :: args.drop (argc + 1)).drop
            (argc + 1 + k + 1) = args.drop (argc + (k + 1) + 1) := by
        intro k
        rw [List.drop_append_eq_append_drop]
        simp [List.length_take, Nat.min_eq_left (Nat.le_of_lt hlt)]
        have e1 : argc + 1 + k + 1 - argc = (k + 1) + 1 := by omega
        rw [List.drop_eq_nil_of_le (by simp; omega), e1]
        simp [List.drop_drop]
        congr 1
        omega
      rw [htake, hdrop]
      have hmem : (decide ("&" ∈ (t :: ts).map String.mk)) = decide ("&" ∈ ts.map String.mk) := by
        have : "&" ≠ String.mk t := fun e => ht e.symm
        simp [this]
      rw [hmem]
      simp [Nat.add_assoc, Nat.add_comm 1]

theorem parse_loop_overflow (toks : List (List Char)) (args : Cells) (argc : Nat) (bg : Bool)
    (h : args.length ≤ argc + ((toks.map String.mk).filter (fun t => t ≠ "&")).length) :
    parse_loop toks args argc bg = none := by
  induction toks generalizing args argc bg with
  | nil =>
    simp only [List.map_nil, List.filter_nil, List.length_nil, Nat.add_zero] at h
    simp [parse_loop, store, Nat.not_lt.mpr h]
  | cons t ts ih =>
    by_cases ht : String.mk t = "&"
    · have hf : ((t :: ts).map String.mk).filter (fun t => t ≠ "&")
          = (ts.map String.mk).filter (fun t => t ≠ "&") := by
        simp [ht]
      rw [hf] at h
      simp only [parse_loop, ht, if_true]
      exact ih args argc true h
    · have hf : ((t :: ts).map String.mk).filter (fun t => t ≠ "&")
          = String.mk t :: (ts.map String.mk).filter (fun t => t ≠ "&") := by
        simp [ht]
      rw [hf] at h
      simp only [List.length_cons] at h
      simp only [parse_loop, ht, if_false]
      by_cases hlt : argc < args.length
      · rw [store_in_bounds _ _ _ hlt]
        apply ih
        rw [store_length args argc _ hlt]
        omega
      · simp [store, hlt]

theorem parse_line_tokens (line : String) :
    (strtok_all line.data.length line.data).map String.mk = space_tokens line := by
  rw [strtok_all_fuel _ _ (Nat.le_refl _)]
  rfl

/-- The call `parse_line` stores outside the array exactly when the tokens
other than `&` are at least as many as the cells: the terminator, or already a
token, then has no cell. -/
theorem parse_line_overflow_iff (line : String) (args : Cells) (background : Bool) :
    parse_line line args background = none
      ↔ args.length ≤ ((space_tokens line).filter (fun t => t ≠ "&")).length := by
  unfold parse_line
  constructor
  · intro h
    by_contra hlt
    have hfit := parse_loop_fits (strtok_all line.data.length line.data) args 0 background
      (by rw [parse_line_tokens]; omega)
    rw [h] at hfit
    cases hfit
  · intro h
    exact parse_loop_overflow _ args 0 background (by rw [parse_line_tokens]; omega)

theorem space_tokens_of_spaces (s : List Char) (h : ∀ c ∈ s, c = ' ') :
    (s.splitOnP (fun c => c == ' ')).filter (fun t => t ≠ []) = [] := by
  induction s with
  | nil => rfl
  | cons c cs ih =>
    have hc : c = ' ' := h c (List.mem_cons_self _ _)
    subst hc
    rw [split_spaces_cons_space]
    exact ih (fun c hc => h c (List.mem_cons_of_mem _ hc))

/-- C3 (amended).  The delimiter of the tokenizer is the space character alone.
For every line whose tokens other than `&` fit the array together with the NULL
terminator, `parse_line` leaves in the array exactly the non-empty
space-delimited tokens of the line, in order, without the tokens equal to `&`,
followed by NULL (cells beyond keep their old content); the returned count is
the number of these tokens; the background flag (false before the call) is
true exactly when some token equals `&`; and a line of spaces only gives
count 0. -/
theorem parse_line_space_tokens (line : String) (args : Cells)
    (hfit : ((space_tokens line).filter (fun t => t ≠ "&")).length < args.length) :
    parse_line line args false
        = some ⟨cells ((space_tokens line).filter (fun t => t ≠ "&"))
                  (args.drop (((space_tokens line).filter (fun t => t ≠ "&")).length + 1)),
                ((space_tokens line).filter (fun t => t ≠ "&")).length,
                decide ("&" ∈ space_tokens line)⟩
      ∧ ((∀ c ∈ line.data, c = ' ') →
          (parse_line line args false).map Parsed.argc = some 0) := by
  have hmain : parse_line line args false
        = some ⟨cells ((space_tokens line).filter (fun t => t ≠ "&"))
                  (args.drop (((space_tokens line).filter (fun t => t ≠ "&")).length + 1)),
                ((space_tokens line).filter (fun t => t ≠ "&")).length,
                decide ("&" ∈ space_tokens line)⟩ := by
    unfold parse_line
    rw [parse_loop_fits _ _ _ _ (by rw [parse_line_tokens]; omega), parse_line_tokens]
    simp [cells]
  refine ⟨hmain, ?_⟩
  intro hsp
  have : space_tokens line = [] := by
    unfold space_tokens
    rw [space_tokens_of_spaces _ hsp]
    rfl
  rw [hmain, this]
  rfl

/-- Witness of `parse_line_space_tokens`: the line `ls -l &` and the array of
`main`. -/
theorem parse_line_space_tokens_witness :
    ((space_tokens "ls -l &").filter (fun t => t ≠ "&")).length < fresh_args.length
    ∧ (parse_line "ls -l &" fresh_args false
        = some ⟨cells ((space_tokens "ls -l &").filter (fun t => t ≠ "&"))
                  (fresh_args.drop
                    (((space_tokens "ls -l &").filter (fun t => t ≠ "&")).length + 1)),
                ((space_tokens "ls -l &").filter (fun t => t ≠ "&")).length,
                decide ("&" ∈ space_tokens "ls -l &")⟩
      ∧ ((∀ c ∈ ("ls -l &" : String).data, c = ' ') →
          (parse_line "ls -l &" fresh_args false).map Parsed.argc = some 0)) :=
  ⟨by decide, parse_line_space_tokens "ls -l &" fresh_args (by decide)⟩

/-- C3 (counterexample).  A tab does not delimit tokens: on the line `a<TAB>b`
the tokenizer returns the single token `a<TAB>b` with count 1, where the
white-space-delimited tokens are `a` and `b`; and the line made of one tab, all
white space, gives count 1 instead of 0. -/
theorem parse_line_tab_is_no_delimiter :
    (parse_line "a\tb" fresh_args false).map (fun p => (argv_of p.args, p.argc))
        = some (["a\tb"], 1)
      ∧ (whitespace_tokens "a\tb").filter (fun t => t ≠ "&") = ["a", "b"]
      ∧ (parse_line "\t" fresh_args false).map Parsed.argc = some 1
      ∧ whitespace_tokens "\t" = [] := by
  decide

/-- C10 (failing input).  The line of 128 one-letter tokens separated by single
spaces has 255 characters, within what `fgets` delivers, and `parse_line` run
on it with the 128-cell array of `main` makes a store outside the array: the
128 tokens fill `args[0 .. 127]` and the terminator goes to `args[128]`. -/
theorem parse_line_long_line_overflows :
    long_line.length = 255 ∧ long_line.length ≤ MAX_LINE - 1
      ∧ ((space_tokens long_line).filter (fun t => t ≠ "&")).length = 128
      ∧ fresh_args.length = 128
      ∧ parse_line long_line fresh_args false = none := by
  decide

/-! ## The spawn loop when `pipe` and `fork` succeed -/

theorem spawn_step_pipe (env : Env) (pc i pid : Nat) (s : Run) (hi : i < pc)
    (hp : env.pipe_ok i = true) (hf : env.fork_pid i = some pid) :
    spawn_step env pc i s =
      { args := (skip_command s.args).drop 1
        in_fd := (sys_pipe s.fds i).2.1
        fd := (sys_pipe s.fds i).2
        fds := sys_close (if s.in_fd ≠ STDIN_FILENO then sys_close (sys_pipe s.fds i).1 s.in_fd
                          else (sys_pipe s.fds i).1) (sys_pipe s.fds i).2.2
        children := s.children ++ [pid]
        pipes := s.pipes ++ [(sys_pipe s.fds i).2]
        spawned := s.spawned ++
          [⟨i, pid, child env i pc s.in_fd (sys_pipe s.fds i).2 s.args (sys_pipe s.fds i).1⟩]
        reaped := s.reaped
        returned_early := s.returned_early } := by
  simp [spawn_step, hi, hp, hf]

theorem spawn_step_last (env : Env) (pc i pid : Nat) (s : Run) (hi : ¬ i < pc)
    (hf : env.fork_pid i = some pid) :
    spawn_step env pc i s =
      { args := (skip_command s.args).drop 1
        in_fd := s.in_fd
        fd := s.fd
        fds := if s.in_fd ≠ STDIN_FILENO then sys_close s.fds s.in_fd else s.fds
        children := s.children ++ [pid]
        pipes := s.pipes
        spawned := s.spawned ++ [⟨i, pid, child env i pc s.in_fd s.fd s.args s.fds⟩]
        reaped := s.reaped
        returned_early := s.returned_early } := by
  simp [spawn_step, hi, hf]

theorem spawn_loop_succ (env : Env) (pc n i : Nat) (s : Run)
    (h : (spawn_step env pc i s).returned_early = false) :
    spawn_loop env pc (n + 1) i s = spawn_loop env pc n (i + 1) (spawn_step env pc i s) := by
  simp [spawn_loop, h]

/-- With every `pipe` and `fork` succeeding, `n` further iterations of the loop
starting at index `i` fork `n` processes, at the indices `i, i + 1, ...`, and
create one pipe for every index below `pipe_count`. -/
theorem spawn_loop_counts (env : Env) (pc : Nat)
    (hp : ∀ i, env.pipe_ok i = true) (hf : ∀ i, (env.fork_pid i).isSome = true)
    (n i : Nat) (s : Run) (hs : s.returned_early = false) :
    (spawn_loop env pc n i s).returned_early = false
      ∧ (spawn_loop env pc n i s).spawned.map Child.stage
          = s.spawned.map Child.stage ++ List.range' i n
      ∧ (spawn_loop env pc n i s).pipes.length = s.pipes.length + min n (pc - i)
      ∧ (spawn_loop env pc n i s).reaped = s.reaped := by
  induction n generalizing i s with
  | zero => simp [spawn_loop, hs]
  | succ n ih =>
    obtain ⟨pid, hpid⟩ := Option.isSome_iff_exists.mp (hf i)
    by_cases hi : i < pc
    · have hstep := spawn_step_pipe env pc i pid s hi (hp i) hpid
      have hre : (spawn_step env pc i s).returned_early = false := by rw [hstep]; exact hs
      rw [spawn_loop_succ env pc n i s hre]
      obtain ⟨h1, h2, h3, h4⟩ := ih (i + 1) (spawn_step env pc i s) hre
      refine ⟨h1, ?_, ?_, ?_⟩
      · rw [h2, hstep]
        simp [List.range'_succ]
      · have hpl : (spawn_step env pc i s).pipes.length = s.pipes.length + 1 := by
          rw [hstep]; simp
        rw [h3, hpl]
        omega
      · rw [h4, hstep]
    · have hstep := spawn_step_last env pc i pid s hi hpid
      have hre : (spawn_step env pc i s).returned_early = false := by rw [hstep]; exact hs
      rw [spawn_loop_succ env pc n i s hre]
      obtain ⟨h1, h2, h3, h4⟩ := ih (i + 1) (spawn_step env pc i s) hre
      refine ⟨h1, ?_, ?_, ?_⟩
      · rw [h2, hstep]
        simp [List.range'_succ]
      · have hpl : (spawn_step env pc i s).pipes.length = s.pipes.length := by
          rw [hstep]
        rw [h3, hpl]
        omega
      · rw [h4, hstep]

/-- The children not yet waited for are, at every point of the loop, those the
shell had on entry followed by the processes forked so far. -/
theorem spawn_loop_children (env : Env) (pc : Nat) (before : List Nat)
    (n i : Nat) (s : Run) (hs : s.children = before ++ s.spawned.map Child.pid) :
    (spawn_loop env pc n i s).children
      = before ++ (spawn_loop env pc n i s).spawned.map Child.pid := by
  induction n generalizing i s with
  | zero => simpa [spawn_loop] using hs
  | succ n ih =>
    simp only [spawn_loop]
    have hstep : (spawn_step env pc i s).children
        = before ++ (spawn_step env pc i s).spawned.map Child.pid := by
      by_cases h2 : i < pc
      · cases h1 : env.pipe_ok i
        · simpa [spawn_step, h1, h2] using hs
        · cases h3 : env.fork_pid i
          · simpa [spawn_step, h1, h2, h3] using hs
          · simp [spawn_step, h1, h2, h3, hs]
      · cases h3 : env.fork_pid i
        · simpa [spawn_step, h2, h3] using hs
        · simp [spawn_step, h2, h3, hs]
    split
    · exact hstep
    · exact ih (i + 1) _ hstep

theorem count_pipes_cells (tokens : List String) (stale : Cells) :
    count_pipes (cells tokens stale) = tokens.count "|" := by
  induction tokens with
  | nil => rfl
  | cons t ts ih =>
    have ih' : count_pipes (ts.map some ++ none :: stale) = ts.count "|" := ih
    by_cases h : t = "|"
    · subst h
      simp [cells, count_pipes, ih', Nat.add_comm]
    · simp [cells, count_pipes, ih', h, List.count_cons, Ne.symm h]

theorem perm_getD_cons_eraseIdx (l : List Nat) (k d : Nat) (h : k < l.length) :
    (l.getD k d :: l.eraseIdx k).Perm l := by
  induction l generalizing k with
  | nil => cases h
  | cons a t ih =>
    cases k with
    | zero => simp
    | succ k =>
      have hk : k < t.length := by simpa using h
      have := ih k hk
      simp only [List.getD_cons_succ, List.eraseIdx_cons_succ]
      exact (List.Perm.swap a (t.getD k d) (t.eraseIdx k)).trans (List.Perm.cons a this)

/-- Whatever the environment does, the pids `wait` has returned together with
the children left outstanding are those collected before the loop together
with those outstanding before it: `wait` returns children of the shell only,
each once, and loses none. -/
theorem wait_loop_perm (env : Env) (left n : Nat) (outstanding reaped : List Nat) :
    ((wait_loop env left n outstanding reaped).2
        ++ (wait_loop env left n outstanding reaped).1).Perm (reaped ++ outstanding) := by
  induction left generalizing n outstanding reaped with
  | zero => simp [wait_loop]
  | succ left ih =>
    cases outstanding with
    | nil => simp [wait_loop]
    | cons pid others =>
      simp only [wait_loop]
      by_cases hint : env.wait_interrupted n = true
      · simp [hint]
      · simp only [hint, Bool.false_eq_true, if_false]
        refine (ih _ _ _).trans ?_
        rw [List.append_assoc]
        apply List.Perm.append_left
        exact perm_getD_cons_eraseIdx (pid :: others) _ pid
          (Nat.mod_lt _ (by simp))

/-- When no call of `wait` is cut short by a signal, the loop ends only when
no child is outstanding. -/
theorem wait_loop_complete (env : Env) (hni : ∀ n, env.wait_interrupted n = false)
    (left n : Nat) (outstanding reaped : List Nat) (h : outstanding.length ≤ left) :
    (wait_loop env left n outstanding reaped).1 = [] := by
  induction left generalizing n outstanding reaped with
  | zero =>
    have : outstanding = [] := List.length_eq_zero.mp (Nat.le_zero.mp h)
    subst this
    rfl
  | succ left ih =>
    cases outstanding with
    | nil => rfl
    | cons pid others =>
      simp only [wait_loop, hni n, Bool.false_eq_true, if_false]
      apply ih
      rw [List.length_eraseIdx]
      have hlt : env.wait_pick n (pid :: others) % (pid :: others).length
          < (pid :: others).length := Nat.mod_lt _ (by simp)
      simp only [List.length_cons] at h hlt ⊢
      rw [if_pos hlt]
      omega

theorem execute_pipeline_spawned (env : Env) (args : Cells) (bg : Bool) (fds : FdTable)
    (children : List Nat) :
    (execute_pipeline env args bg fds children).spawned
      = (spawn_loop env (count_pipes args) (count_pipes args + 1) 0
          (entry_state args fds children)).spawned := by
  unfold execute_pipeline
  simp only []
  split
  · rfl
  · split <;> rfl

theorem execute_pipeline_pipes (env : Env) (args : Cells) (bg : Bool) (fds : FdTable)
    (children : List Nat) :
    (execute_pipeline env args bg fds children).pipes
      = (spawn_loop env (count_pipes args) (count_pipes args + 1) 0
          (entry_state args fds children)).pipes := by
  unfold execute_pipeline
  simp only []
  split
  · rfl
  · split <;> rfl

theorem execute_pipeline_fds (env : Env) (args : Cells) (bg : Bool) (fds : FdTable)
    (children : List Nat) :
    (execute_pipeline env args bg fds children).fds
      = (spawn_loop env (count_pipes args) (count_pipes args + 1) 0
          (entry_state args fds children)).fds := by
  unfold execute_pipeline
  simp only []
  split
  · rfl
  · split <;> rfl

theorem execute_pipeline_stage_indices (env : Env) (tokens : List String) (stale : Cells)
    (background : Bool) (fds : FdTable) (children : List Nat)
    (hp : ∀ i, env.pipe_ok i = true) (hf : ∀ i, (env.fork_pid i).isSome = true) :
    (execute_pipeline env (cells tokens stale) background fds children).pipes.length
        = tokens.count "|"
      ∧ (execute_pipeline env (cells tokens stale) background fds children).spawned.map
          Child.stage = List.range (tokens.count "|" + 1) := by
  have hc := count_pipes_cells tokens stale
  obtain ⟨_, h2, h3, _⟩ := spawn_loop_counts env (count_pipes (cells tokens stale)) hp hf
    (count_pipes (cells tokens stale) + 1) 0 (entry_state (cells tokens stale) fds children) rfl
  constructor
  · rw [execute_pipeline_pipes, h3, hc]
    simp [entry_state]
  · rw [execute_pipeline_spawned, h2, hc]
    simp [entry_state, List.range_eq_range']

theorem execute_pipeline_spawned_length (env : Env) (tokens : List String) (stale : Cells)
    (background : Bool) (fds : FdTable) (children : List Nat)
    (hp : ∀ i, env.pipe_ok i = true) (hf : ∀ i, (env.fork_pid i).isSome = true) :
    (execute_pipeline env (cells tokens stale) background fds children).spawned.length
      = tokens.count "|" + 1 := by
  have := congrArg List.length
    (execute_pipeline_stage_indices env tokens stale background fds children hp hf).2
  simpa using this

/-- C1.  For every token sequence with `k` tokens equal to `|`, when every
`pipe` and `fork` call succeeds, `count_pipes` returns `k`, and
`execute_pipeline` creates exactly `k` pipes and forks exactly `k + 1`
processes, one in each iteration `i = 0, ..., k` of its loop. -/
theorem execute_pipeline_counts (env : Env) (tokens : List String) (stale : Cells)
    (background : Bool) (fds : FdTable) (children : List Nat)
    (hp : ∀ i, env.pipe_ok i = true) (hf : ∀ i, (env.fork_pid i).isSome = true) :
    count_pipes (cells tokens stale) = tokens.count "|"
      ∧ (execute_pipeline env (cells tokens stale) background fds children).pipes.length
          = tokens.count "|"
      ∧ (execute_pipeline env (cells tokens stale) background fds children).spawned.length
          = tokens.count "|" + 1
      ∧ (execute_pipeline env (cells tokens stale) background fds children).spawned.map
          Child.stage = List.range (tokens.count "|" + 1) :=
  ⟨count_pipes_cells tokens stale,
    (execute_pipeline_stage_indices env tokens stale background fds children hp hf).1,
    execute_pipeline_spawned_length env tokens stale background fds children hp hf,
    (execute_pipeline_stage_indices env tokens stale background fds children hp hf).2⟩

/-- Witness of `execute_pipeline_counts`: the line `ls -l | wc` in an
environment where every call succeeds. -/
theorem execute_pipeline_counts_witness :
    count_pipes (cells ["ls", "-l", "|", "wc"] []) = ["ls", "-l", "|", "wc"].count "|"
      ∧ (execute_pipeline env_ok (cells ["ls", "-l", "|", "wc"] []) false tty []).pipes.length
          = ["ls", "-l", "|", "wc"].count "|"
      ∧ (execute_pipeline env_ok (cells ["ls", "-l", "|", "wc"] []) false tty []).spawned.length
          = ["ls", "-l", "|", "wc"].count "|" + 1
      ∧ (execute_pipeline env_ok (cells ["ls", "-l", "|", "wc"] []) false tty []).spawned.map
          Child.stage = List.range (["ls", "-l", "|", "wc"].count "|" + 1) :=
  execute_pipeline_counts env_ok ["ls", "-l", "|", "wc"] [] false tty []
    (fun _ => rfl) (fun _ => rfl)

theorem execute_pipeline_foreground (env : Env) (args : Cells) (fds : FdTable)
    (children : List Nat)
    (h : (spawn_loop env (count_pipes args) (count_pipes args + 1) 0
      (entry_state args fds children)).returned_early = false) :
    execute_pipeline env args false fds children
      = { spawn_loop env (count_pipes args) (count_pipes args + 1) 0
            (entry_state args fds children) with
          reaped := (wait_loop env
            (spawn_loop env (count_pipes args) (count_pipes args + 1) 0
              (entry_state args fds children)).children.length 0
            (spawn_loop env (count_pipes args) (count_pipes args + 1) 0
              (entry_state args fds children)).children
            (spawn_loop env (count_pipes args) (count_pipes args + 1) 0
              (entry_state args fds children)).reaped).2
          children := (wait_loop env
            (spawn_loop env (count_pipes args) (count_pipes args + 1) 0
              (entry_state args fds children)).children.length 0
            (spawn_loop env (count_pipes args) (count_pipes args + 1) 0
              (entry_state args fds children)).children
            (spawn_loop env (count_pipes args) (count_pipes args + 1) 0
              (entry_state args fds children)).reaped).1 } := by
  unfold execute_pipeline
  simp [h]

theorem execute_pipeline_background (env : Env) (args : Cells) (fds : FdTable)
    (children : List Nat) :
    execute_pipeline env args true fds children
      = spawn_loop env (count_pipes args) (count_pipes args + 1) 0
          (entry_state args fds children) := by
  unfold execute_pipeline
  simp

/-- C9 (amended).  When every `pipe` and `fork` call succeeds and no call of
`wait` is cut short by a signal: with the background flag false,
`execute_pipeline` returns only when no child of the shell is outstanding;
the pids `wait` has returned, in whatever order the children terminated, are
the children left outstanding by earlier background pipelines together with
the processes forked for this pipeline, each once, so every process of this
pipeline has terminated; with the background flag true it returns without a
single `wait`, and the processes it forked join the outstanding children. -/
theorem execute_pipeline_reaps_all (env : Env) (args : Cells) (fds : FdTable)
    (children : List Nat)
    (hp : ∀ i, env.pipe_ok i = true) (hf : ∀ i, (env.fork_pid i).isSome = true)
    (hni : ∀ n, env.wait_interrupted n = false) :
    ((execute_pipeline env args false fds children).children = []
      ∧ ((execute_pipeline env args false fds children).reaped).Perm
          (children ++ (execute_pipeline env args false fds children).spawned.map Child.pid)
      ∧ (∀ c ∈ (execute_pipeline env args false fds children).spawned,
          c.pid ∈ (execute_pipeline env args false fds children).reaped)
      ∧ (∀ pid ∈ children, pid ∈ (execute_pipeline env args false fds children).reaped))
    ∧ ((execute_pipeline env args true fds children).reaped = []
      ∧ (execute_pipeline env args true fds children).children
        = children ++ (execute_pipeline env args true fds children).spawned.map Child.pid) := by
  obtain ⟨h1, _, _, h4⟩ := spawn_loop_counts env (count_pipes args) hp hf
    (count_pipes args + 1) 0 (entry_state args fds children) rfl
  have hch := spawn_loop_children env (count_pipes args) children (count_pipes args + 1) 0
    (entry_state args fds children) (by simp [entry_state])
  have hnone : (execute_pipeline env args false fds children).children = [] := by
    rw [execute_pipeline_foreground env args fds children h1]
    exact wait_loop_complete env hni _ 0 _ _ (Nat.le_refl _)
  have hperm : ((execute_pipeline env args false fds children).reaped).Perm
      (children ++ (execute_pipeline env args false fds children).spawned.map Child.pid) := by
    have hw := wait_loop_perm env
      (spawn_loop env (count_pipes args) (count_pipes args + 1) 0
        (entry_state args fds children)).children.length 0
      (spawn_loop env (count_pipes args) (count_pipes args + 1) 0
        (entry_state args fds children)).children
      (spawn_loop env (count_pipes args) (count_pipes args + 1) 0
        (entry_state args fds children)).reaped
    rw [wait_loop_complete env hni _ 0 _ _ (Nat.le_refl _), List.append_nil, h4] at hw
    rw [execute_pipeline_spawned, execute_pipeline_foreground env args fds children h1]
    simp only []
    rw [← hch, h4]
    simpa [entry_state] using hw
  refine ⟨⟨hnone, hperm, ?_, ?_⟩, ?_, ?_⟩
  · intro c hc
    exact hperm.symm.subset (List.mem_append_right _ (List.mem_map_of_mem _ hc))
  · intro pid hpid
    exact hperm.symm.subset (List.mem_append_left _ hpid)
  · rw [execute_pipeline_background, h4]
    rfl
  · rw [execute_pipeline_background]
    exact hch

/-- Witness of `execute_pipeline_reaps_all`: `ls | wc` run by a shell that has
the child 7 of an earlier background pipeline outstanding, the children
terminating last first. -/
theorem execute_pipeline_reaps_all_witness :
    ((execute_pipeline env_last_first (cells ["ls", "|", "wc"] []) false tty [7]).children = []
      ∧ ((execute_pipeline env_last_first (cells ["ls", "|", "wc"] []) false tty [7]).reaped).Perm
          ([7] ++ (execute_pipeline env_last_first (cells ["ls", "|", "wc"] []) false tty
            [7]).spawned.map Child.pid)
      ∧ (∀ c ∈ (execute_pipeline env_last_first (cells ["ls", "|", "wc"] []) false tty
            [7]).spawned,
          c.pid ∈ (execute_pipeline env_last_first (cells ["ls", "|", "wc"] []) false tty
            [7]).reaped)
      ∧ (∀ pid ∈ [7],
          pid ∈ (execute_pipeline env_last_first (cells ["ls", "|", "wc"] []) false tty
            [7]).reaped))
    ∧ ((execute_pipeline env_last_first (cells ["ls", "|", "wc"] []) true tty [7]).reaped = []
      ∧ (execute_pipeline env_last_first (cells ["ls", "|", "wc"] []) true tty [7]).children
        = [7] ++ (execute_pipeline env_last_first (cells ["ls", "|", "wc"] []) true tty
            [7]).spawned.map Child.pid) :=
  execute_pipeline_reaps_all env_last_first (cells ["ls", "|", "wc"] []) tty [7]
    (fun _ => rfl) (fun _ => rfl) (fun _ => rfl)

/-- C9 (counterexample).  A shell with the child 7 of an earlier background
pipeline outstanding runs `ls` in the foreground, no `wait` being
interrupted: the only process of this pipeline is 100, and `wait` collects 7
as well, whether 7 terminates before 100 or after it. -/
theorem execute_pipeline_reaps_earlier_child :
    (execute_pipeline env_ok (cells ["ls"] []) false tty [7]).spawned.map Child.pid = [100]
      ∧ (execute_pipeline env_ok (cells ["ls"] []) false tty [7]).reaped = [7, 100]
      ∧ (execute_pipeline env_last_first (cells ["ls"] []) false tty [7]).spawned.map Child.pid
          = [100]
      ∧ (execute_pipeline env_last_first (cells ["ls"] []) false tty [7]).reaped = [100, 7]
      ∧ 7 ∈ (execute_pipeline env_ok (cells ["ls"] []) false tty [7]).reaped
      ∧ 7 ∉ (execute_pipeline env_ok (cells ["ls"] []) false tty [7]).spawned.map Child.pid := by
  decide

/-- The loop `while (wait(NULL) > 0)` ends on the first `wait` a signal cuts
short: with a `SIGINT` reaching the shell during its first `wait`, `ls | wc`
in the foreground returns with nothing collected and both processes still
outstanding; with the children terminating last first and no signal, `wc` is
collected before `ls`. -/
theorem execute_pipeline_interrupted_wait :
    (execute_pipeline env_sigint (cells ["ls", "|", "wc"] []) false tty []).reaped = []
      ∧ (execute_pipeline env_sigint (cells ["ls", "|", "wc"] []) false tty []).children
          = [100, 101]
      ∧ (execute_pipeline env_last_first (cells ["ls", "|", "wc"] []) false tty []).reaped
          = [101, 100] := by
  decide

/-! ## Stages: the runs of tokens between pipe markers -/

theorem cut_at_pipe_stage (run : List String) (sep : Option String) (rest : Cells)
    (hrun : "|" ∉ run) (hsep : sep = none ∨ sep = some "|") :
    cut_at_pipe (run.map some ++ sep :: rest) = run.map some ++ none :: rest := by
  induction run with
  | nil =>
    rcases hsep with h | h <;> subst h <;> simp [cut_at_pipe]
  | cons t ts ih =>
    have ht : t ≠ "|" := fun e => hrun (e ▸ List.mem_cons_self _ _)
    have hts : "|" ∉ ts := fun h => hrun (List.mem_cons_of_mem _ h)
    simp [cut_at_pipe, ht, ih hts]

theorem skip_command_stage (run : List String) (sep : Option String) (rest : Cells)
    (hrun : "|" ∉ run) (hsep : sep = none ∨ sep = some "|") :
    skip_command (run.map some ++ sep :: rest) = sep :: rest := by
  induction run with
  | nil =>
    rcases hsep with h | h <;> subst h <;> simp [skip_command]
  | cons t ts ih =>
    have ht : t ≠ "|" := fun e => hrun (e ▸ List.mem_cons_self _ _)
    have hts : "|" ∉ ts := fun h => hrun (List.mem_cons_of_mem _ h)
    simp [skip_command, ht, ih hts]

theorem splitOn_pipe_single (run : List String) (hrun : "|" ∉ run) :
    run.splitOn "|" = [run] := by
  unfold List.splitOn
  apply List.splitOnP_eq_single
  intro x hx hxe
  have : x = "|" := by simpa using hxe
  exact hrun (this ▸ hx)

theorem splitOn_pipe_first (run more : List String) (hrun : "|" ∉ run) :
    (run ++ "|" :: more).splitOn "|" = run :: more.splitOn "|" := by
  unfold List.splitOn
  apply List.splitOnP_first
  · intro x hx hxe
    have : x = "|" := by simpa using hxe
    exact hrun (this ▸ hx)
  · simp

/-- With every `pipe` and `fork` succeeding, the loop forks one process for
every run of tokens between pipe markers, in order, and each of them runs the
child code on an array that starts with that run followed by `|` or NULL.
`R` is any property of a run and of the outcome of the child code on it. -/
theorem spawn_loop_stages (env : Env) (R : List String → Outcome → Prop)
    (hR : ∀ (run : List String) (sep : Option String) (rest : Cells) (i pc in_fd : Nat)
      (fd : Nat × Nat) (fds : FdTable), "|" ∉ run → (sep = none ∨ sep = some "|") →
      R run (child env i pc in_fd fd (run.map some ++ sep :: rest) fds))
    (hp : ∀ i, env.pipe_ok i = true) (hf : ∀ i, (env.fork_pid i).isSome = true) (pc : Nat)
    (m : Nat) (tokens : List String) (stale : Cells) (i : Nat) (s : Run)
    (hm : tokens.count "|" = m) (hi : i + m = pc) (hargs : s.args = cells tokens stale)
    (hs : s.returned_early = false) :
    ∃ kids, (spawn_loop env pc (m + 1) i s).spawned = s.spawned ++ kids
      ∧ List.Forall₂ R (tokens.splitOn "|") (kids.map Child.outcome) := by
  induction m generalizing tokens i s with
  | zero =>
    have hrun : "|" ∉ tokens := List.count_eq_zero.mp hm
    obtain ⟨pid, hpid⟩ := Option.isSome_iff_exists.mp (hf i)
    have hlt : ¬ i < pc := by omega
    have hstep := spawn_step_last env pc i pid s hlt hpid
    have hre : (spawn_step env pc i s).returned_early = false := by rw [hstep]; exact hs
    rw [spawn_loop_succ env pc 0 i s hre]
    refine ⟨[⟨i, pid, child env i pc s.in_fd s.fd s.args s.fds⟩], ?_, ?_⟩
    · simp [spawn_loop, hstep]
    · rw [splitOn_pipe_single tokens hrun, hargs]
      simp only [List.map_cons, List.map_nil]
      exact List.Forall₂.cons (hR tokens none stale i pc s.in_fd s.fd s.fds hrun (Or.inl rfl))
        List.Forall₂.nil
  | succ m ih =>
    have hmem : "|" ∈ tokens := by
      rw [← List.count_pos_iff]
      omega
    obtain ⟨run, more, htok, hrun⟩ := List.eq_append_cons_of_mem hmem
    subst htok
    have hmore : more.count "|" = m := by
      have h0 : run.count "|" = 0 := List.count_eq_zero.mpr hrun
      rw [List.count_append, List.count_cons_self, h0] at hm
      omega
    obtain ⟨pid, hpid⟩ := Option.isSome_iff_exists.mp (hf i)
    have hlt : i < pc := by omega
    have hstep := spawn_step_pipe env pc i pid s hlt (hp i) hpid
    have hre : (spawn_step env pc i s).returned_early = false := by rw [hstep]; exact hs
    have hcells : s.args = run.map some ++ some "|" :: cells more stale := by
      rw [hargs]
      simp [cells]
    have hnext : (spawn_step env pc i s).args = cells more stale := by
      rw [hstep]
      simp only []
      rw [hcells, skip_command_stage run (some "|") _ hrun (Or.inr rfl)]
      rfl
    rw [spawn_loop_succ env pc (m + 1) i s hre]
    obtain ⟨kids, hk1, hk2⟩ := ih more (i + 1) (spawn_step env pc i s) hmore (by omega) hnext hre
    refine ⟨⟨i, pid, child env i pc s.in_fd (sys_pipe s.fds i).2 s.args (sys_pipe s.fds i).1⟩
      :: kids, ?_, ?_⟩
    · rw [hk1, hstep]
      simp
    · rw [splitOn_pipe_first run more hrun, hcells]
      simp only [List.map_cons]
      exact List.Forall₂.cons (hR run (some "|") _ i pc s.in_fd _ _ hrun (Or.inr rfl)) hk2

/-- The form of `spawn_loop_stages` for a whole call of `execute_pipeline`. -/
theorem execute_pipeline_stages (env : Env) (R : List String → Outcome → Prop)
    (hR : ∀ (run : List String) (sep : Option String) (rest : Cells) (i pc in_fd : Nat)
      (fd : Nat × Nat) (fds : FdTable), "|" ∉ run → (sep = none ∨ sep = some "|") →
      R run (child env i pc in_fd fd (run.map some ++ sep :: rest) fds))
    (hp : ∀ i, env.pipe_ok i = true) (hf : ∀ i, (env.fork_pid i).isSome = true)
    (tokens : List String) (stale : Cells) (bg : Bool) (fds : FdTable) (children : List Nat) :
    List.Forall₂ R (tokens.splitOn "|")
      ((execute_pipeline env (cells tokens stale) bg fds children).spawned.map
        Child.outcome) := by
  rw [execute_pipeline_spawned, count_pipes_cells]
  obtain ⟨kids, hk1, hk2⟩ := spawn_loop_stages env R hR hp hf (tokens.count "|")
    (tokens.count "|") tokens stale 0 (entry_state (cells tokens stale) fds children)
    rfl (by omega) rfl rfl
  rw [hk1]
  simpa [entry_state] using hk2

/-! ## The child code on one stage -/

theorem handle_redirection_from_cons_plain (env : Env) (t : String) (seen more : Cells)
    (fds : FdTable) (h1 : t ≠ "<") (h2 : t ≠ ">") :
    handle_redirection_from env seen (some t :: more) fds
      = handle_redirection_from env (seen ++ [some t]) more fds := by
  simp [handle_redirection_from, input_block, output_block, h1, h2]

theorem handle_redirection_from_plain (env : Env) (run : List String) (seen rest : Cells)
    (fds : FdTable) (h : ∀ t ∈ run, t ≠ "<" ∧ t ≠ ">") :
    handle_redirection_from env seen (run.map some ++ none :: rest) fds
      = Redirected.done (seen ++ (run.map some ++ none :: rest)) fds := by
  induction run generalizing seen with
  | nil => simp [handle_redirection_from]
  | cons t ts ih =>
    obtain ⟨h1, h2⟩ := h t (List.mem_cons_self _ _)
    have hts : ∀ u ∈ ts, u ≠ "<" ∧ u ≠ ">" := fun u hu => h u (List.mem_cons_of_mem _ hu)
    simp only [List.map_cons, List.cons_append]
    rw [handle_redirection_from_cons_plain env t seen _ fds h1 h2, ih (seen ++ [some t]) hts]
    simp

theorem mem_of_mem_splitOnP {α : Type} (p : α → Bool) (l : List α) :
    ∀ run ∈ l.splitOnP p, ∀ t ∈ run, t ∈ l := by
  induction l with
  | nil =>
    intro run hrun t ht
    rw [List.splitOnP_nil] at hrun
    simp at hrun
    subst hrun
    cases ht
  | cons x xs ih =>
    intro run hrun t ht
    rw [List.splitOnP_cons] at hrun
    by_cases hx : p x = true
    · rw [if_pos hx] at hrun
      rcases List.mem_cons.mp hrun with e | e
      · subst e; cases ht
      · exact List.mem_cons_of_mem _ (ih run e t ht)
    · rw [if_neg hx] at hrun
      cases hsp : List.splitOnP p xs with
      | nil => exact absurd hsp (List.splitOnP_ne_nil p xs)
      | cons hd tl =>
        rw [hsp] at hrun ih
        simp only [List.modifyHead_cons] at hrun
        rcases List.mem_cons.mp hrun with e | e
        · subst e
          rcases List.mem_cons.mp ht with e2 | e2
          · subst e2; exact List.mem_cons_self _ _
          · exact List.mem_cons_of_mem _ (ih hd (List.mem_cons_self _ _) t e2)
        · exact List.mem_cons_of_mem _ (ih run (List.mem_cons_of_mem _ e) t ht)

theorem argv_of_stage (run : List String) (rest : Cells) :
    argv_of (run.map some ++ none :: rest) = run := by
  induction run with
  | nil => rfl
  | cons t ts ih => simp [argv_of, ih]

/-- On a stage without redirection operators the child reaches `execvp` with
the first token of the stage as program name (NULL when the stage is empty) and
the tokens of the stage as argument vector. -/
theorem child_plain_stage (env : Env) (run : List String) (sep : Option String) (rest : Cells)
    (i pc in_fd : Nat) (fd : Nat × Nat) (fds : FdTable)
    (hrun : "|" ∉ run) (hsep : sep = none ∨ sep = some "|")
    (h : ∀ t ∈ run, t ≠ "<" ∧ t ≠ ">") :
    (child env i pc in_fd fd (run.map some ++ sep :: rest) fds).call
      = some (run.head?, run) := by
  unfold child
  simp only []
  rw [cut_at_pipe_stage run sep rest hrun hsep]
  unfold handle_redirection
  rw [handle_redirection_from_plain env run [] rest _ h]
  simp only [List.nil_append]
  cases run with
  | nil => simp [Outcome.call, argv_of]
  | cons t ts =>
    simp only [List.map_cons, List.cons_append, Outcome.call, List.head?_cons]
    rw [show some t :: (ts.map some ++ none :: rest) = (t :: ts).map some ++ none :: rest by simp,
      argv_of_stage]

theorem forall₂_map_eq {α β γ : Type} (P : α → Prop) (f : α → γ) (g : β → γ)
    (l₁ : List α) (l₂ : List β)
    (h : List.Forall₂ (fun a b => P a → g b = f a) l₁ l₂) (hP : ∀ a ∈ l₁, P a) :
    l₂.map g = l₁.map f := by
  induction h with
  | nil => rfl
  | cons hab _ ih =>
    simp only [List.map_cons]
    rw [hab (hP _ (List.mem_cons_self _ _)), ih (fun a ha => hP a (List.mem_cons_of_mem _ ha))]

theorem forall₂_exists_right {α β : Type} (R : α → β → Prop) (l₁ : List α) (l₂ : List β)
    (h : List.Forall₂ R l₁ l₂) (a : α) (ha : a ∈ l₁) : ∃ b ∈ l₂, R a b := by
  induction h with
  | nil => cases ha
  | cons hab _ ih =>
    rcases List.mem_cons.mp ha with e | e
    · subst e
      exact ⟨_, List.mem_cons_self _ _, hab⟩
    · obtain ⟨b, hb, hr⟩ := ih e
      exact ⟨b, List.mem_cons_of_mem _ hb, hr⟩

theorem forall₂_left_of {α β : Type} (P : α → Prop) (l₁ : List α) (l₂ : List β)
    (h : List.Forall₂ (fun a _ => P a) l₁ l₂) : ∀ a ∈ l₁, P a := by
  induction h with
  | nil => intro a ha; cases ha
  | cons hab _ ih =>
    intro a ha
    rcases List.mem_cons.mp ha with e | e
    · subst e; exact hab
    · exact ih a e

/-- C2.  For every token sequence in which no stage is empty and no token is
`<` or `>`, when every `pipe` and `fork` call succeeds, the calls of `execvp`
made by the forked children, in the order in which they were forked, are
exactly the runs of the split of the token sequence on `|`: the `i`-th child
passes the `i`-th run as argument vector and its first token as program name;
and no run contains a pipe marker. -/
theorem execute_pipeline_splits_on_pipes (env : Env) (tokens : List String) (stale : Cells)
    (background : Bool) (fds : FdTable) (children : List Nat)
    (hp : ∀ i, env.pipe_ok i = true) (hf : ∀ i, (env.fork_pid i).isSome = true)
    (hne : [] ∉ tokens.splitOn "|") (hred : ∀ t ∈ tokens, t ≠ "<" ∧ t ≠ ">") :
    (execute_pipeline env (cells tokens stale) background fds children).spawned.map
        (fun c => c.outcome.call)
      = (tokens.splitOn "|").map (fun run => some (run.head?, run))
    ∧ (∀ run ∈ tokens.splitOn "|", "|" ∉ run)
    ∧ (∀ run ∈ tokens.splitOn "|", ∃ prog, run.head? = some prog) := by
  have hall := execute_pipeline_stages env
    (fun run o => "|" ∉ run ∧ ((∀ t ∈ run, t ≠ "<" ∧ t ≠ ">") → o.call = some (run.head?, run)))
    (fun run sep rest i pc in_fd fd fds hrun hsep =>
      ⟨hrun, child_plain_stage env run sep rest i pc in_fd fd fds hrun hsep⟩)
    hp hf tokens stale background fds children
  have hplain : ∀ run ∈ tokens.splitOn "|", ∀ t ∈ run, t ≠ "<" ∧ t ≠ ">" :=
    fun run hrun t ht => hred t (mem_of_mem_splitOnP _ tokens run hrun t ht)
  refine ⟨?_, ?_, ?_⟩
  · have h2 := forall₂_map_eq (fun run : List String => ∀ t ∈ run, t ≠ "<" ∧ t ≠ ">")
      (fun run : List String => some (run.head?, run)) Outcome.call _ _
      (hall.imp (fun _ _ h => h.2)) hplain
    rw [← h2, List.map_map]
    rfl
  · exact forall₂_left_of (fun run : List String => "|" ∉ run) _ _ (hall.imp (fun _ _ h => h.1))
  · intro run hrun
    cases run with
    | nil => exact absurd hrun hne
    | cons t ts => exact ⟨t, rfl⟩

/-- Witness of `execute_pipeline_splits_on_pipes`: the line `ls -l | wc`. -/
theorem execute_pipeline_splits_on_pipes_witness :
    ([] ∉ ["ls", "-l", "|", "wc"].splitOn "|"
      ∧ ∀ t ∈ ["ls", "-l", "|", "wc"], t ≠ "<" ∧ t ≠ ">")
    ∧ ((execute_pipeline env_ok (cells ["ls", "-l", "|", "wc"] []) false tty []).spawned.map
          (fun c => c.outcome.call)
        = (["ls", "-l", "|", "wc"].splitOn "|").map (fun run => some (run.head?, run))
      ∧ (∀ run ∈ ["ls", "-l", "|", "wc"].splitOn "|", "|" ∉ run)
      ∧ (∀ run ∈ ["ls", "-l", "|", "wc"].splitOn "|", ∃ prog, run.head? = some prog)) :=
  ⟨⟨by decide, by decide⟩,
    execute_pipeline_splits_on_pipes env_ok ["ls", "-l", "|", "wc"] [] false tty []
      (fun _ => rfl) (fun _ => rfl) (by decide) (by decide)⟩

theorem nil_mem_splitOnP_tail {α : Type} (p : α → Bool) (sep : α) (hsep : p sep = true)
    (a c : List α) (hc : [] ∈ c.splitOnP p) : [] ∈ ((a ++ sep :: c).splitOnP p).tail := by
  induction a with
  | nil =>
    rw [List.nil_append, List.splitOnP_cons, if_pos hsep]
    exact hc
  | cons x xs ih =>
    rw [List.cons_append, List.splitOnP_cons]
    by_cases hx : p x = true
    · rw [if_pos hx]
      exact List.mem_of_mem_tail ih
    · rw [if_neg hx]
      cases hsp : List.splitOnP p (xs ++ sep :: c) with
      | nil => exact absurd hsp (List.splitOnP_ne_nil p _)
      | cons hd tl =>
        rw [hsp] at ih
        simpa using ih

theorem has_empty_stage_split (tokens : List String) (h : has_empty_stage tokens = true) :
    [] ∈ tokens.splitOn "|" ∧ "|" ∈ tokens := by
  unfold List.splitOn
  have h' : tokens.head? = some "|" ∨ tokens.getLast? = some "|" ∨ ["|", "|"] <:+: tokens := by
    simpa [has_empty_stage, or_assoc] using h
  rcases h' with h | h | h
  · cases tokens with
    | nil => cases h
    | cons t ts =>
      have : t = "|" := by simpa using h
      subst this
      refine ⟨?_, List.mem_cons_self _ _⟩
      rw [List.splitOnP_cons]
      simp
  · obtain ⟨ys, hys⟩ := List.getLast?_eq_some_iff.mp h
    subst hys
    refine ⟨List.mem_of_mem_tail
      (nil_mem_splitOnP_tail (fun x => x == "|") "|" (by simp) ys [] (by simp [List.splitOnP_nil])),
      by simp⟩
  · obtain ⟨a, b, hab⟩ := h
    subst hab
    refine ⟨?_, by simp⟩
    have hc : [] ∈ List.splitOnP (fun x => x == "|") ("|" :: b) := by
      rw [List.splitOnP_cons]
      simp
    have := List.mem_of_mem_tail
      (nil_mem_splitOnP_tail (fun x => x == "|") "|" (by simp) a ("|" :: b) hc)
    simpa using this

theorem forall₂_getElem? {α β : Type} (R : α → β → Prop) (l₁ : List α) (l₂ : List β)
    (h : List.Forall₂ R l₁ l₂) (i : Nat) (a : α) (ha : l₁[i]? = some a) :
    ∃ b, l₂[i]? = some b ∧ R a b := by
  induction h generalizing i with
  | nil => simp at ha
  | cons hab _ ih =>
    cases i with
    | zero =>
      simp only [List.getElem?_cons_zero, Option.some.injEq] at ha
      subst ha
      exact ⟨_, by simp, hab⟩
    | succ k =>
      simp only [List.getElem?_cons_succ] at ha ⊢
      exact ih k ha

/-- C6 (amended).  `execute_pipeline` does not reject a token sequence with an
empty stage.  For every token sequence with a pipe marker first, a pipe marker
last, or two pipe markers in a row, when every `pipe` and `fork` call succeeds,
it forks `k + 1` processes, `k >= 1` being the number of pipe markers, one for
each of the `k + 1` runs of the split of the sequence on `|`; at least one run
is empty; and for every empty run, the `i`-th say, the child forked for it
(the `i`-th forked, at loop index `i`) reaches `execvp` with the NULL pointer
as program name and an empty argument vector. -/
theorem execute_pipeline_empty_stage_spawns (env : Env) (tokens : List String) (stale : Cells)
    (background : Bool) (fds : FdTable) (children : List Nat)
    (hp : ∀ i, env.pipe_ok i = true) (hf : ∀ i, (env.fork_pid i).isSome = true)
    (hempty : has_empty_stage tokens = true) :
    1 ≤ tokens.count "|"
      ∧ (execute_pipeline env (cells tokens stale) background fds children).spawned.length
          = tokens.count "|" + 1
      ∧ (tokens.splitOn "|").length = tokens.count "|" + 1
      ∧ (∃ i : Nat, (tokens.splitOn "|")[i]? = some [])
      ∧ ∀ i : Nat, (tokens.splitOn "|")[i]? = some [] →
          ∃ c : Child,
            (execute_pipeline env (cells tokens stale) background fds children).spawned[i]?
              = some c
            ∧ c.stage = i ∧ c.outcome.call = some (none, []) := by
  obtain ⟨hnil, hmem⟩ := has_empty_stage_split tokens hempty
  have hlen := execute_pipeline_spawned_length env tokens stale background fds children hp hf
  have hstage :=
    (execute_pipeline_stage_indices env tokens stale background fds children hp hf).2
  have hall := execute_pipeline_stages env
    (fun run o => run = [] → o.call = some (none, []))
    (fun run sep rest i pc in_fd fd fds hrun hsep hnil => by
      subst hnil
      exact child_plain_stage env [] sep rest i pc in_fd fd fds hrun hsep
        (fun t ht => by cases ht))
    hp hf tokens stale background fds children
  have hsplit : (tokens.splitOn "|").length = tokens.count "|" + 1 := by
    have := hall.length_eq
    rw [List.length_map, hlen] at this
    exact this
  refine ⟨List.count_pos_iff.mpr hmem, hlen, hsplit, List.mem_iff_getElem?.mp hnil, ?_⟩
  intro i hi
  obtain ⟨o, ho, hcall⟩ := forall₂_getElem? _ _ _ hall i [] hi
  rw [List.getElem?_map] at ho
  cases hc : (execute_pipeline env (cells tokens stale) background fds children).spawned[i]? with
  | none => rw [hc] at ho; cases ho
  | some c =>
    rw [hc] at ho
    simp only [Option.map_some', Option.some.injEq] at ho
    refine ⟨c, rfl, ?_, by rw [ho]; exact hcall rfl⟩
    have hs : ((execute_pipeline env (cells tokens stale) background fds children).spawned.map
        Child.stage)[i]? = some c.stage := by
      rw [List.getElem?_map, hc]
      rfl
    rw [hstage] at hs
    have hlt : i < tokens.count "|" + 1 := by
      have := (List.getElem?_eq_some_iff.mp hc).1
      omega
    rw [List.getElem?_range hlt] at hs
    exact (Option.some.inj hs).symm

/-- Witness of `execute_pipeline_empty_stage_spawns`: the line `ls | | > f`,
whose second stage is empty and whose third is not. -/
theorem execute_pipeline_empty_stage_spawns_witness :
    has_empty_stage ["ls", "|", "|", ">", "f"] = true
    ∧ (1 ≤ ["ls", "|", "|", ">", "f"].count "|"
      ∧ (execute_pipeline env_ok (cells ["ls", "|", "|", ">", "f"] []) false tty
          []).spawned.length = ["ls", "|", "|", ">", "f"].count "|" + 1
      ∧ (["ls", "|", "|", ">", "f"].splitOn "|").length
          = ["ls", "|", "|", ">", "f"].count "|" + 1
      ∧ (∃ i : Nat, (["ls", "|", "|", ">", "f"].splitOn "|")[i]? = some [])
      ∧ ∀ i : Nat, (["ls", "|", "|", ">", "f"].splitOn "|")[i]? = some [] →
          ∃ c : Child,
            (execute_pipeline env_ok (cells ["ls", "|", "|", ">", "f"] []) false tty
              []).spawned[i]? = some c
            ∧ c.stage = i ∧ c.outcome.call = some (none, [])) :=
  ⟨by decide,
    execute_pipeline_empty_stage_spawns env_ok ["ls", "|", "|", ">", "f"] [] false tty []
      (fun _ => rfl) (fun _ => rfl) (by decide)⟩

/-- C6 (counterexample).  The line `ls |` ends in a pipe marker, and
`execute_pipeline` forks two processes for it: the first runs `ls`, the second
calls `execvp` with a NULL program name. -/
theorem execute_pipeline_dangling_pipe_forks :
    has_empty_stage ["ls", "|"] = true
      ∧ (execute_pipeline env_ok (cells ["ls", "|"] []) false tty []).spawned.length = 2
      ∧ (execute_pipeline env_ok (cells ["ls", "|"] []) false tty []).spawned.map
          (fun c => (c.pid, c.outcome.call))
        = [(100, some (some "ls", ["ls"])), (101, some (none, []))] :=
  ⟨by decide, by decide, by decide⟩

/-! ## Descriptor tables: lookups after `put`, `close`, `dup2`, `open` -/

theorem look_nil (x : Nat) : look [] x = none := by
  cases x <;> rfl

theorem look_put (t : FdTable) (fd : Nat) (v : Option FObj) (x : Nat) :
    look (put t fd v) x = if x = fd then v else look t x := by
  induction fd generalizing t x with
  | zero =>
    cases t <;> cases x <;> simp [put, look, look_nil]
  | succ n ih =>
    cases t with
    | nil =>
      cases x with
      | zero => simp [put, look]
      | succ m => simp [put, look, ih, look_nil]
    | cons a t =>
      cases x with
      | zero => simp [put, look]
      | succ m => simp [put, look, ih]

theorem look_lowest_free (t : FdTable) : look t (lowest_free t) = none := by
  induction t with
  | nil => rfl
  | cons a t ih =>
    cases a with
    | none => rfl
    | some o => simpa [lowest_free, look] using ih

theorem look_close (t : FdTable) (fd x : Nat) :
    look (sys_close t fd) x = if x = fd then none else look t x := by
  simp [sys_close, look_put]

theorem look_dup2 (t : FdTable) (a b x : Nat) :
    look (sys_dup2 t a b) x = if x = b ∧ look t a ≠ none then look t a else look t x := by
  unfold sys_dup2
  cases h : look t a with
  | none => simp
  | some o => simp [look_put]

/-- A successful `open` followed by `dup2(fd, target); close(fd)`, as both
blocks of `handle_redirection` do it: when descriptor `target` was open, the
table changes at `target` only, which now refers to the opened file. -/
theorem look_redirect (t : FdTable) (o : FObj) (target x : Nat)
    (ht : look t target ≠ none) :
    look (sys_close (sys_dup2 (put t (lowest_free t) (some o)) (lowest_free t) target)
        (lowest_free t)) x
      = if x = target then some o else look t x := by
  have hfree := look_lowest_free t
  have hne : lowest_free t ≠ target := fun e => ht (e ▸ hfree)
  rw [look_close, look_dup2, look_put, look_put]
  by_cases h1 : x = lowest_free t
  · subst h1
    simp [hne, hfree]
  · by_cases h2 : x = target
    · subst h2
      simp [h1]
    · simp [h1, h2]

/-! ## Redirection: proofs -/

theorem output_block_open (env : Env) (f : String) (rest : Cells) (fds : FdTable)
    (hw : env.can_write f = true) :
    output_block env (some ">") (some f :: rest) fds
      = Step.next none (sys_close (sys_dup2 (put fds (lowest_free fds) (some (FObj.fileW f)))
          (lowest_free fds) STDOUT_FILENO) (lowest_free fds)) := by
  simp [output_block, sys_open, hw]

theorem input_block_open (env : Env) (f : String) (rest : Cells) (fds : FdTable)
    (hr : env.can_read f = true) :
    input_block env "<" (some f :: rest) fds
      = Step.next none (sys_close (sys_dup2 (put fds (lowest_free fds) (some (FObj.fileR f)))
          (lowest_free fds) STDIN_FILENO) (lowest_free fds)) := by
  simp [input_block, sys_open, hr]

/-- After a `<` whose file opened, `args[i]` is NULL and the next `strcmp`
reads through it. -/
theorem handle_redirection_from_input_fault (env : Env) (pre : List String) (file : String)
    (seen more : Cells) (fds : FdTable)
    (hpre : ∀ t ∈ pre, t ≠ "<" ∧ t ≠ ">") (hr : env.can_read file = true) :
    handle_redirection_from env seen (pre.map some ++ some "<" :: some file :: more) fds
      = Redirected.fault := by
  induction pre generalizing seen with
  | nil =>
    simp only [List.map_nil, List.nil_append, handle_redirection_from]
    rw [input_block_open env file more fds hr]
    simp [output_block]
  | cons t ts ih =>
    obtain ⟨h1, h2⟩ := hpre t (List.mem_cons_self _ _)
    simp only [List.map_cons, List.cons_append]
    rw [handle_redirection_from_cons_plain env t seen _ fds h1 h2]
    exact ih _ (fun u hu => hpre u (List.mem_cons_of_mem _ hu))

/-- Every command `prog a1 ... an < file` whose file can be opened makes the
child fault in `handle_redirection`, whatever follows the file name. -/
theorem child_input_redirect_faults (env : Env) (pre : List String) (file : String)
    (more : Cells) (i pc in_fd : Nat) (fd : Nat × Nat) (fds : FdTable)
    (hpre : ∀ t ∈ pre, t ≠ "<" ∧ t ≠ ">" ∧ t ≠ "|") (hfile : file ≠ "|")
    (hr : env.can_read file = true) :
    child env i pc in_fd fd (pre.map some ++ some "<" :: some file :: none :: more) fds
      = Outcome.fault := by
  have hrun : "|" ∉ pre ++ ["<", file] := by
    intro h
    rcases List.mem_append.mp h with h | h
    · exact (hpre _ h).2.2 rfl
    · simp at h
      exact hfile h.symm
  have hcut := cut_at_pipe_stage (pre ++ ["<", file]) none more hrun (Or.inl rfl)
  simp only [List.map_append, List.map_cons, List.map_nil, List.append_assoc,
    List.cons_append, List.nil_append] at hcut
  unfold child
  simp only []
  rw [hcut]
  unfold handle_redirection
  rw [handle_redirection_from_input_fault env pre file [] _ _
    (fun t ht => ⟨(hpre t ht).1, (hpre t ht).2.1⟩) hr]

/-- C5 (failing input).  `cat < f` with `f` readable: the only child forked
faults in `handle_redirection` (after `args[1] = NULL` the second `strcmp`
reads `args[1]`) and never reaches `execvp`. -/
theorem execute_pipeline_cat_from_file_faults :
    env_ok.can_read "f" = true
      ∧ (execute_pipeline env_ok (cells ["cat", "<", "f"] []) false tty []).spawned.map
          Child.outcome = [Outcome.fault]
      ∧ handle_redirection env_ok (cells ["cat", "<", "f"] []) tty = Redirected.fault := by
  decide

/-- C7 (failing input).  `cat < f >` with `f` readable has a bare `>` as last
token of its only stage; the child does not call `_exit`: it faults in
`handle_redirection` right after the `<` has been served. -/
theorem execute_pipeline_bare_output_after_input_faults :
    env_ok.can_read "f" = true
      ∧ (execute_pipeline env_ok (cells ["cat", "<", "f", ">"] []) false tty []).spawned.map
          Child.outcome = [Outcome.fault]
      ∧ (execute_pipeline env_ok (cells ["cat", "<", "f", ">", "|", "wc"] []) false tty
          []).spawned.map (fun c => c.outcome.call) = [none, some (some "wc", ["wc"])] := by
  decide

theorem handle_redirection_from_bare (env : Env) (run : List String) (op : String)
    (seen rest : Cells) (fds : FdTable) (hop : op = "<" ∨ op = ">") :
    (handle_redirection_from env seen ((run ++ [op]).map some ++ none :: rest) fds
        = Redirected.exited 1
      ∨ handle_redirection_from env seen ((run ++ [op]).map some ++ none :: rest) fds
        = Redirected.fault)
    ∧ ("<" ∉ run →
        handle_redirection_from env seen ((run ++ [op]).map some ++ none :: rest) fds
          = Redirected.exited 1) := by
  induction run generalizing seen fds with
  | nil =>
    have h : handle_redirection_from env seen (([] ++ [op]).map some ++ none :: rest) fds
        = Redirected.exited 1 := by
      rcases hop with h | h <;> subst h <;>
        simp [handle_redirection_from, input_block, output_block, sys_open]
    exact ⟨Or.inl h, fun _ => h⟩
  | cons t ts ih =>
    obtain ⟨path, tail, hshape⟩ : ∃ path tail,
        (ts ++ [op]).map some ++ none :: rest = some path :: tail := by
      cases ts with
      | nil => exact ⟨op, _, rfl⟩
      | cons u us => exact ⟨u, _, rfl⟩
    have hcons : ((t :: ts) ++ [op]).map some ++ none :: rest
        = some t :: ((ts ++ [op]).map some ++ none :: rest) := rfl
    rw [hcons]
    by_cases h1 : t = "<"
    · subst h1
      have hstep : handle_redirection_from env seen
            (some "<" :: ((ts ++ [op]).map some ++ none :: rest)) fds = Redirected.exited 1
          ∨ handle_redirection_from env seen
            (some "<" :: ((ts ++ [op]).map some ++ none :: rest)) fds = Redirected.fault := by
        rw [hshape]
        cases hr : env.can_read path
        · left
          simp [handle_redirection_from, input_block, sys_open, hr]
        · right
          simp only [handle_redirection_from]
          rw [input_block_open env path tail fds hr]
          simp [output_block]
      exact ⟨hstep, fun hno => absurd (List.mem_cons_self _ _) hno⟩
    · by_cases h2 : t = ">"
      · subst h2
        cases hw : env.can_write path
        · have h : handle_redirection_from env seen
              (some ">" :: ((ts ++ [op]).map some ++ none :: rest)) fds
              = Redirected.exited 1 := by
            rw [hshape]
            simp [handle_redirection_from, input_block, output_block, sys_open, hw]
          exact ⟨Or.inl h, fun _ => h⟩
        · have h : handle_redirection_from env seen
              (some ">" :: ((ts ++ [op]).map some ++ none :: rest)) fds
              = handle_redirection_from env (seen ++ [none])
                  ((ts ++ [op]).map some ++ none :: rest)
                  (sys_close (sys_dup2 (put fds (lowest_free fds) (some (FObj.fileW path)))
                    (lowest_free fds) STDOUT_FILENO) (lowest_free fds)) := by
            rw [hshape]
            simp only [handle_redirection_from]
            have hin : input_block env ">" (some path :: tail) fds
                = Step.next (some ">") fds := by
              simp [input_block]
            rw [hin]
            simp only []
            rw [output_block_open env path tail fds hw]
          rw [h]
          obtain ⟨ih1, ih2⟩ := ih (seen ++ [none]) (sys_close (sys_dup2
            (put fds (lowest_free fds) (some (FObj.fileW path)))
            (lowest_free fds) STDOUT_FILENO) (lowest_free fds))
          exact ⟨ih1, fun hno => ih2 (fun hm => hno (List.mem_cons_of_mem _ hm))⟩
      · rw [handle_redirection_from_cons_plain env t seen _ fds h1 h2]
        obtain ⟨ih1, ih2⟩ := ih (seen ++ [some t]) fds
        exact ⟨ih1, fun hno => ih2 (fun hm => hno (List.mem_cons_of_mem _ hm))⟩

/-- A stage whose last token is a bare `<` or `>` never reaches `execvp`: the
`open` of the NULL pointer that follows the operator fails and the child calls
`_exit(1)`, unless the child has faulted before; and it cannot have faulted
when no `<` precedes the bare operator. -/
theorem child_bare_redirect (env : Env) (run : List String) (op : String)
    (sep : Option String) (rest : Cells) (i pc in_fd : Nat) (fd : Nat × Nat) (fds : FdTable)
    (hrun : "|" ∉ run ++ [op]) (hsep : sep = none ∨ sep = some "|")
    (hop : op = "<" ∨ op = ">") :
    (child env i pc in_fd fd ((run ++ [op]).map some ++ sep :: rest) fds = Outcome.exited 1
      ∨ child env i pc in_fd fd ((run ++ [op]).map some ++ sep :: rest) fds = Outcome.fault)
    ∧ ("<" ∉ run →
        child env i pc in_fd fd ((run ++ [op]).map some ++ sep :: rest) fds
          = Outcome.exited 1) := by
  unfold child
  simp only []
  rw [cut_at_pipe_stage (run ++ [op]) sep rest hrun hsep]
  unfold handle_redirection
  obtain ⟨h1, h2⟩ := handle_redirection_from_bare env run op [] rest
    (if i < pc then
      sys_close (sys_close (sys_dup2 (if in_fd ≠ STDIN_FILENO then
        sys_close (sys_dup2 fds in_fd STDIN_FILENO) in_fd else fds) fd.2 STDOUT_FILENO) fd.1)
        fd.2
     else if in_fd ≠ STDIN_FILENO then sys_close (sys_dup2 fds in_fd STDIN_FILENO) in_fd
       else fds) hop
  constructor
  · rcases h1 with h | h <;> rw [h] <;> simp
  · intro hno
    rw [h2 hno]

theorem handle_redirection_from_cons_output (env : Env) (f : String) (seen more : Cells)
    (fds : FdTable) (hw : env.can_write f = true) :
    handle_redirection_from env seen (some ">" :: some f :: more) fds
      = handle_redirection_from env (seen ++ [none]) (some f :: more)
          (sys_close (sys_dup2 (put fds (lowest_free fds) (some (FObj.fileW f)))
            (lowest_free fds) STDOUT_FILENO) (lowest_free fds)) := by
  simp only [handle_redirection_from]
  have hib : input_block env ">" (some f :: more) fds = Step.next (some ">") fds := by
    simp [input_block]
  rw [hib]
  simp only []
  rw [output_block_open env f more fds hw]

theorem last_out_target_cons (t : String) (ts : List String) :
    last_out_target (t :: ts)
      = match last_out_target ts with
        | some g => some g
        | none => if t = ">" then ts.head? else none := rfl

theorem argv_of_cut (run : List String) (rest : Cells) :
    argv_of (run.map (fun t => if t = ">" then none else some t) ++ none :: rest)
      = run.takeWhile (fun t => t ≠ ">") := by
  induction run with
  | nil => rfl
  | cons t ts ih =>
    by_cases h : t = ">"
    · subst h
      simp [argv_of]
    · simp [argv_of, h, ih]

theorem head_cut (run : List String) (rest : Cells) :
    (run.map (fun t => if t = ">" then none else some t) ++ none :: rest).head?
      = some (run.takeWhile (fun t => t ≠ ">")).head? := by
  cases run with
  | nil => rfl
  | cons t ts =>
    by_cases h : t = ">"
    · subst h
      simp
    · simp [h]

theorem handle_redirection_from_outputs (env : Env) (run : List String) (seen rest : Cells)
    (fds : FdTable) (hin : "<" ∉ run)
    (hout : ∀ n, run[n]? = some ">" → ∃ f, run[n + 1]? = some f ∧ env.can_write f = true) :
    ∃ fds1, handle_redirection_from env seen (run.map some ++ none :: rest) fds
        = Redirected.done
            (seen ++ (run.map (fun t => if t = ">" then none else some t) ++ none :: rest)) fds1
      ∧ (look fds STDOUT_FILENO ≠ none → ∀ x, look fds1 x
          = if x = STDOUT_FILENO then
              (match last_out_target run with
               | some f => some (FObj.fileW f)
               | none => look fds x)
            else look fds x) := by
  induction run generalizing seen fds with
  | nil =>
    refine ⟨fds, by simp [handle_redirection_from], ?_⟩
    intro _ x
    simp [last_out_target]
  | cons t ts ih =>
    have hts : "<" ∉ ts := fun h => hin (List.mem_cons_of_mem _ h)
    have hout' : ∀ n, ts[n]? = some ">" → ∃ f, ts[n + 1]? = some f ∧ env.can_write f = true := by
      intro n hn
      have := hout (n + 1) (by simpa using hn)
      simpa using this
    by_cases h2 : t = ">"
    · subst h2
      obtain ⟨f, hf, hw⟩ := hout 0 (by simp)
      obtain ⟨us, hus⟩ : ∃ us, ts = f :: us := by
        cases ts with
        | nil => simp at hf
        | cons u us =>
          have : u = f := by simpa using hf
          exact ⟨us, by rw [this]⟩
      obtain ⟨fds1, h1, h2⟩ := ih (seen ++ [none])
        (sys_close (sys_dup2 (put fds (lowest_free fds) (some (FObj.fileW f)))
          (lowest_free fds) STDOUT_FILENO) (lowest_free fds)) hts hout'
      refine ⟨fds1, ?_, ?_⟩
      · have hstep : handle_redirection_from env seen
            ((">" :: ts).map some ++ none :: rest) fds
            = handle_redirection_from env (seen ++ [none]) (ts.map some ++ none :: rest)
                (sys_close (sys_dup2 (put fds (lowest_free fds) (some (FObj.fileW f)))
                  (lowest_free fds) STDOUT_FILENO) (lowest_free fds)) := by
          subst hus
          simp only [List.map_cons, List.cons_append]
          exact handle_redirection_from_cons_output env f seen _ fds hw
        rw [hstep, h1]
        simp
      · intro hopen x
        have hnew : ∀ y, look (sys_close (sys_dup2 (put fds (lowest_free fds)
            (some (FObj.fileW f))) (lowest_free fds) STDOUT_FILENO) (lowest_free fds)) y
            = if y = STDOUT_FILENO then some (FObj.fileW f) else look fds y :=
          fun y => look_redirect fds (FObj.fileW f) STDOUT_FILENO y hopen
        have hopen' : look (sys_close (sys_dup2 (put fds (lowest_free fds)
            (some (FObj.fileW f))) (lowest_free fds) STDOUT_FILENO) (lowest_free fds))
            STDOUT_FILENO ≠ none := by
          rw [hnew]
          simp
        rw [h2 hopen' x]
        by_cases hx : x = STDOUT_FILENO
        · subst hx
          subst hus
          rw [last_out_target_cons ">" (f :: us)]
          cases last_out_target (f :: us) with
          | none => simp [hnew]
          | some g => simp
        · simp [hx, hnew]
    · have h1 : t ≠ "<" := fun e => hin (e ▸ List.mem_cons_self _ _)
      obtain ⟨fds1, hd, htab⟩ := ih (seen ++ [some t]) fds hts hout'
      refine ⟨fds1, ?_, ?_⟩
      · simp only [List.map_cons, List.cons_append]
        rw [handle_redirection_from_cons_plain env t seen _ fds h1 h2, hd]
        simp [h2]
      · intro hopen x
        rw [htab hopen x]
        rw [last_out_target_cons t ts]
        cases last_out_target ts <;> simp [h2]

/-- C4 (amended).  For every stage token list without `<` in which each `>` is
followed by a token naming a file that opens for writing: `handle_redirection`
returns, having overwritten each `>` by NULL and removed nothing; when standard
output was open, it now refers to the file named after the last `>` (if there
is a `>`), and no other descriptor has changed; and the argument vector
`execvp` then receives is the stage's token list cut at its first `>`, that
is, the tokens before the first redirection operator in their original order,
the program name being the first of them (NULL if there is none). -/
theorem handle_redirection_cuts_at_first_output (env : Env) (run : List String)
    (sep : Option String) (rest : Cells) (fds : FdTable)
    (i pc in_fd : Nat) (fd : Nat × Nat)
    (hpipe : "|" ∉ run) (hsep : sep = none ∨ sep = some "|") (hin : "<" ∉ run)
    (hout : ∀ n, run[n]? = some ">" → ∃ f, run[n + 1]? = some f ∧ env.can_write f = true) :
    (∃ fds1, handle_redirection env (cells run rest) fds
        = Redirected.done
            (run.map (fun t => if t = ">" then none else some t) ++ none :: rest) fds1
      ∧ (look fds STDOUT_FILENO ≠ none → ∀ x, look fds1 x
          = if x = STDOUT_FILENO then
              (match last_out_target run with
               | some f => some (FObj.fileW f)
               | none => look fds x)
            else look fds x))
    ∧ (child env i pc in_fd fd (run.map some ++ sep :: rest) fds).call
        = some ((run.takeWhile (fun t => t ≠ ">")).head?, run.takeWhile (fun t => t ≠ ">")) := by
  constructor
  · obtain ⟨fds1, h1, h2⟩ := handle_redirection_from_outputs env run [] rest fds hin hout
    exact ⟨fds1, by simpa [handle_redirection, cells] using h1, h2⟩
  · unfold child
    simp only []
    rw [cut_at_pipe_stage run sep rest hpipe hsep]
    unfold handle_redirection
    obtain ⟨fds1, h1, _⟩ := handle_redirection_from_outputs env run [] rest
      (if i < pc then
        sys_close (sys_close (sys_dup2 (if in_fd ≠ STDIN_FILENO then
          sys_close (sys_dup2 fds in_fd STDIN_FILENO) in_fd else fds) fd.2 STDOUT_FILENO) fd.1)
          fd.2
       else if in_fd ≠ STDIN_FILENO then sys_close (sys_dup2 fds in_fd STDIN_FILENO) in_fd
         else fds) hin hout
    rw [h1]
    simp only [List.nil_append]
    have hhead := head_cut run rest
    cases hc : run.map (fun t => if t = ">" then none else some t) ++ none :: rest with
    | nil => simp at hc
    | cons file tail =>
      rw [hc] at hhead
      simp only [List.head?_cons, Option.some.injEq] at hhead
      simp only [Outcome.call]
      rw [← hc, argv_of_cut, hhead]

theorem echo_outputs_writable :
    ∀ n, ["echo", "hi", ">", "out", "more"][n]? = some ">" →
      ∃ f, ["echo", "hi", ">", "out", "more"][n + 1]? = some f ∧ env_ok.can_write f = true := by
  intro n hn
  match n with
  | 0 => simp at hn
  | 1 => simp at hn
  | 2 => exact ⟨"out", rfl, rfl⟩
  | 3 => simp at hn
  | 4 => simp at hn
  | k + 5 => simp at hn

/-- Witness of `handle_redirection_cuts_at_first_output`: the stage
`echo hi > out more` run as the only command of a line by a shell with the
three standard descriptors open. -/
theorem handle_redirection_cuts_at_first_output_witness :
    ("|" ∉ ["echo", "hi", ">", "out", "more"] ∧ "<" ∉ ["echo", "hi", ">", "out", "more"])
    ∧ ((∃ fds1, handle_redirection env_ok (cells ["echo", "hi", ">", "out", "more"] []) tty
          = Redirected.done
              (["echo", "hi", ">", "out", "more"].map (fun t => if t = ">" then none else some t)
                ++ none :: []) fds1
        ∧ (look tty STDOUT_FILENO ≠ none → ∀ x, look fds1 x
            = if x = STDOUT_FILENO then
                (match last_out_target ["echo", "hi", ">", "out", "more"] with
                 | some f => some (FObj.fileW f)
                 | none => look tty x)
              else look tty x))
      ∧ (child env_ok 0 0 STDIN_FILENO (0, 0)
            (["echo", "hi", ">", "out", "more"].map some ++ none :: []) tty).call
          = some ((["echo", "hi", ">", "out", "more"].takeWhile (fun t => t ≠ ">")).head?,
                  ["echo", "hi", ">", "out", "more"].takeWhile (fun t => t ≠ ">"))) :=
  ⟨⟨by decide, by decide⟩,
    handle_redirection_cuts_at_first_output env_ok ["echo", "hi", ">", "out", "more"] none []
      tty 0 0 STDIN_FILENO (0, 0) (by decide) (Or.inl rfl) (by decide) echo_outputs_writable⟩

/-- C4 (counterexample).  `echo > out hi`: the token list with the operator
and its operand removed is `echo hi`, and the child calls `execvp` with the
argument vector `echo` alone, standard output being the file `out`. -/
theorem execute_pipeline_drops_tokens_after_output :
    strip_redirections ["echo", ">", "out", "hi"] = ["echo", "hi"]
      ∧ (execute_pipeline env_ok (cells ["echo", ">", "out", "hi"] []) false tty []).spawned.map
          Child.outcome
        = [Outcome.exec (some "echo") ["echo"]
            [some (FObj.inherited 0), some (FObj.fileW "out"), some (FObj.inherited 2), none]] := by
  decide

/-! ## Descriptor discipline of the pipeline -/

theorem look_sys_pipe (t : FdTable) (i : Nat) :
    look t (sys_pipe t i).2.1 = none ∧ look t (sys_pipe t i).2.2 = none
      ∧ (sys_pipe t i).2.1 ≠ (sys_pipe t i).2.2
      ∧ ∀ x, look (sys_pipe t i).1 x
          = if x = (sys_pipe t i).2.2 then some (FObj.pipeW i)
            else if x = (sys_pipe t i).2.1 then some (FObj.pipeR i) else look t x := by
  have h1 := look_lowest_free t
  have h2 := look_lowest_free (put t (lowest_free t) (some (FObj.pipeR i)))
  rw [look_put] at h2
  have hne : lowest_free (put t (lowest_free t) (some (FObj.pipeR i))) ≠ lowest_free t := by
    intro e
    rw [if_pos e] at h2
    cases h2
  rw [if_neg hne] at h2
  refine ⟨h1, h2, fun e => hne e.symm, ?_⟩
  intro x
  simp only [sys_pipe, look_put]

/-- The two blocks of `handle_redirection` add no pipe write end to a table. -/
theorem input_block_write_ends (env : Env) (cur : String) (rest : Cells) (fds fds1 : FdTable)
    (c : Option String) (h : input_block env cur rest fds = Step.next c fds1) :
    ∀ x j, look fds1 x = some (FObj.pipeW j) → look fds x = some (FObj.pipeW j) := by
  unfold input_block at h
  split at h
  · split at h
    · cases h
    · split at h
      · cases h
      · rename_i path _ fds2 fd hopen
        cases h
        unfold sys_open at hopen
        split at hopen
        · cases hopen
        · split at hopen
          · cases hopen
            intro x j hx
            rw [look_close, look_dup2, look_put, look_put] at hx
            by_cases h1 : x = lowest_free fds
            · simp [h1] at hx
            · by_cases h2 : x = STDIN_FILENO
              · simp [h1, h2] at hx
              · simpa [h1, h2] using hx
          · cases hopen
  · cases h
    intro x j hx
    exact hx

theorem output_block_write_ends (env : Env) (cur : Option String) (rest : Cells)
    (fds fds1 : FdTable) (c : Option String)
    (h : output_block env cur rest fds = Step.next c fds1) :
    ∀ x j, look fds1 x = some (FObj.pipeW j) → look fds x = some (FObj.pipeW j) := by
  unfold output_block at h
  split at h
  · cases h
  · split at h
    · split at h
      · cases h
      · split at h
        · cases h
        · rename_i path _ fds2 fd hopen
          cases h
          unfold sys_open at hopen
          split at hopen
          · cases hopen
          · split at hopen
            · cases hopen
              intro x j hx
              rw [look_close, look_dup2, look_put, look_put] at hx
              by_cases h1 : x = lowest_free fds
              · simp [h1] at hx
              · by_cases h2 : x = STDOUT_FILENO
                · simp [h1, h2] at hx
                · simpa [h1, h2] using hx
            · cases hopen
    · cases h
      intro x j hx
      exact hx

theorem handle_redirection_from_write_ends (env : Env) (todo seen args1 : Cells)
    (fds fds1 : FdTable)
    (h : handle_redirection_from env seen todo fds = Redirected.done args1 fds1) :
    ∀ x j, look fds1 x = some (FObj.pipeW j) → look fds x = some (FObj.pipeW j) := by
  induction todo generalizing seen fds with
  | nil => simp [handle_redirection_from] at h
  | cons a rest ih =>
    cases a with
    | none =>
      simp only [handle_redirection_from, Redirected.done.injEq] at h
      obtain ⟨_, h2⟩ := h
      subst h2
      exact fun _ _ hx => hx
    | some t =>
      simp only [handle_redirection_from] at h
      cases hib : input_block env t rest fds with
      | exited st => rw [hib] at h; cases h
      | fault => rw [hib] at h; cases h
      | next cur fdsA =>
        rw [hib] at h
        simp only [] at h
        cases hob : output_block env cur rest fdsA with
        | exited st => rw [hob] at h; cases h
        | fault => rw [hob] at h; cases h
        | next cur2 fdsB =>
          rw [hob] at h
          simp only [] at h
          intro x j hx
          exact input_block_write_ends env t rest fds fdsA cur hib x j
            (output_block_write_ends env cur rest fdsA fdsB cur2 hob x j (ih _ _ h x j hx))

/-- When the table the child inherits holds no pipe write end but the one
just created at `fd[1]`, the table with which it reaches `execvp` holds a pipe
write end at standard output only, and only that of its own stage. -/
theorem child_write_ends (env : Env) (i pc in_fd : Nat) (fd : Nat × Nat) (args : Cells)
    (fds : FdTable)
    (hpar : ∀ x j, look fds x = some (FObj.pipeW j) → i < pc ∧ j = i ∧ x = fd.2)
    (hin : in_fd ≠ fd.2)
    (file : Option String) (argv : List String) (t : FdTable)
    (h : child env i pc in_fd fd args fds = Outcome.exec file argv t) :
    ∀ x j, look t x = some (FObj.pipeW j) → j = i ∧ x = STDOUT_FILENO := by
  have h1 : ∀ x j, look (if in_fd ≠ STDIN_FILENO then
        sys_close (sys_dup2 fds in_fd STDIN_FILENO) in_fd else fds) x = some (FObj.pipeW j) →
      i < pc ∧ j = i ∧ x = fd.2 := by
    intro x j hx
    by_cases hi : in_fd ≠ STDIN_FILENO
    · rw [if_pos hi, look_close, look_dup2] at hx
      by_cases hx1 : x = in_fd
      · simp [hx1] at hx
      · rw [if_neg hx1] at hx
        by_cases hx2 : x = STDIN_FILENO ∧ look fds in_fd ≠ none
        · rw [if_pos hx2] at hx
          exact absurd (hpar in_fd j hx).2.2 hin
        · rw [if_neg hx2] at hx
          exact hpar x j hx
    · rw [if_neg hi] at hx
      exact hpar x j hx
  have h2 : ∀ fds1 : FdTable,
      (∀ x j, look fds1 x = some (FObj.pipeW j) → i < pc ∧ j = i ∧ x = fd.2) →
      ∀ x j, look (if i < pc then
        sys_close (sys_close (sys_dup2 fds1 fd.2 STDOUT_FILENO) fd.1) fd.2 else fds1) x
          = some (FObj.pipeW j) → j = i ∧ x = STDOUT_FILENO := by
    intro fds1 hf1 x j hx
    by_cases hi : i < pc
    · rw [if_pos hi, look_close, look_close, look_dup2] at hx
      by_cases hx1 : x = fd.2
      · simp [hx1] at hx
      · rw [if_neg hx1] at hx
        by_cases hx2 : x = fd.1
        · simp [hx2] at hx
        · rw [if_neg hx2] at hx
          by_cases hc : x = STDOUT_FILENO ∧ look fds1 fd.2 ≠ none
          · rw [if_pos hc] at hx
            exact ⟨(hf1 _ j hx).2.1, hc.1⟩
          · rw [if_neg hc] at hx
            exact absurd (hf1 x j hx).2.2 hx1
    · rw [if_neg hi] at hx
      exact absurd (hf1 x j hx).1 hi
  unfold child at h
  simp only [] at h
  split at h
  · rename_i args1 fds3 hred
    split at h
    · cases h
    · cases h
      intro x j hx
      exact h2 _ h1 x j (handle_redirection_from_write_ends env _ [] _ _ _ hred x j hx)
  · cases h
  · cases h

/-- The loop's use of descriptors, when every `pipe` and `fork` succeeds and
the shell entered with standard input open and no pipe end of this pipeline in
its table `fds0`.  Before an iteration the shell's table is `fds0`, plus, from
the second iteration on, the read end of the previous pipe at `in_fd`; after
the last iteration it is `fds0` again; and every child reaches `execvp`, if it
does, with no pipe write end but that of its own stage at standard output. -/
theorem spawn_loop_descriptors (env : Env) (pc : Nat) (fds0 : FdTable)
    (hp : ∀ i, env.pipe_ok i = true) (hf : ∀ i, (env.fork_pid i).isSome = true)
    (hfresh : ∀ x j, look fds0 x ≠ some (FObj.pipeR j) ∧ look fds0 x ≠ some (FObj.pipeW j))
    (hstdin : look fds0 STDIN_FILENO ≠ none)
    (n i : Nat) (s : Run) (hn : i + n = pc + 1) (hs : s.returned_early = false)
    (hinv : (i ≤ pc →
        (s.in_fd = STDIN_FILENO → ∀ x, look s.fds x = look fds0 x)
        ∧ (s.in_fd ≠ STDIN_FILENO → look fds0 s.in_fd = none
            ∧ ∃ j, ∀ x, look s.fds x = if x = s.in_fd then some (FObj.pipeR j) else look fds0 x))
      ∧ (pc < i → ∀ x, look s.fds x = look fds0 x))
    (hgood : ∀ c ∈ s.spawned, ∀ file argv t, c.outcome = Outcome.exec file argv t →
      ∀ x j, look t x = some (FObj.pipeW j) → j = c.stage ∧ x = STDOUT_FILENO) :
    (∀ x, look (spawn_loop env pc n i s).fds x = look fds0 x)
      ∧ (∀ c ∈ (spawn_loop env pc n i s).spawned, ∀ file argv t,
          c.outcome = Outcome.exec file argv t →
          ∀ x j, look t x = some (FObj.pipeW j) → j = c.stage ∧ x = STDOUT_FILENO) := by
  induction n generalizing i s with
  | zero =>
    exact ⟨hinv.2 (by omega), hgood⟩
  | succ n ih =>
    obtain ⟨pid, hpid⟩ := Option.isSome_iff_exists.mp (hf i)
    obtain ⟨hinv0, hinvN⟩ := hinv.1 (by omega)
    -- the shell's table before the iteration, descriptor by descriptor
    have hnoW : ∀ x j, look s.fds x ≠ some (FObj.pipeW j) := by
      intro x j hx
      by_cases h0 : s.in_fd = STDIN_FILENO
      · rw [hinv0 h0] at hx
        exact (hfresh x j).2 hx
      · obtain ⟨_, k, hk⟩ := hinvN h0
        rw [hk] at hx
        split at hx
        · cases hx
        · exact (hfresh x j).2 hx
    have hopen0 : look s.fds STDIN_FILENO ≠ none := by
      by_cases h0 : s.in_fd = STDIN_FILENO
      · rw [hinv0 h0]
        exact hstdin
      · obtain ⟨_, k, hk⟩ := hinvN h0
        rw [hk, if_neg (fun e => h0 e.symm)]
        exact hstdin
    have hopenin : look s.fds s.in_fd ≠ none := by
      by_cases h0 : s.in_fd = STDIN_FILENO
      · rw [h0]
        exact hopen0
      · obtain ⟨_, k, hk⟩ := hinvN h0
        rw [hk, if_pos rfl]
        simp
    by_cases hi : i < pc
    · have hstep := spawn_step_pipe env pc i pid s hi (hp i) hpid
      have hre : (spawn_step env pc i s).returned_early = false := by rw [hstep]; exact hs
      rw [spawn_loop_succ env pc n i s hre]
      obtain ⟨hr, hw, hrw, hlook⟩ := look_sys_pipe s.fds i
      have hr0 : (sys_pipe s.fds i).2.1 ≠ STDIN_FILENO := fun e => hopen0 (e ▸ hr)
      have hrin : (sys_pipe s.fds i).2.1 ≠ s.in_fd := fun e => hopenin (e ▸ hr)
      have hwin : (sys_pipe s.fds i).2.2 ≠ s.in_fd := fun e => hopenin (e ▸ hw)
      apply ih (i + 1) (spawn_step env pc i s) (by omega) hre
      · refine ⟨fun _ => ?_, fun h => absurd h (by omega)⟩
        have hfds : (spawn_step env pc i s).fds
            = sys_close (if s.in_fd ≠ STDIN_FILENO then sys_close (sys_pipe s.fds i).1 s.in_fd
                else (sys_pipe s.fds i).1) (sys_pipe s.fds i).2.2 := by rw [hstep]
        have hinfd : (spawn_step env pc i s).in_fd = (sys_pipe s.fds i).2.1 := by rw [hstep]
        rw [hfds, hinfd]
        refine ⟨fun e => absurd e hr0, fun _ => ?_⟩
        by_cases h0 : s.in_fd = STDIN_FILENO
        · have hT := hinv0 h0
          refine ⟨by rw [← hT]; exact hr, i, ?_⟩
          intro x
          rw [if_neg (by simpa using h0), look_close, hlook]
          by_cases hx1 : x = (sys_pipe s.fds i).2.2
          · rw [if_pos hx1, if_neg (fun e => hrw (by rw [← hx1, e])), ← hT, hx1, hw]
          · rw [if_neg hx1, if_neg hx1, hT]
        · obtain ⟨hfree, k, hk⟩ := hinvN h0
          have hr' : look fds0 (sys_pipe s.fds i).2.1 = none := by
            have := hr
            rw [hk, if_neg hrin] at this
            exact this
          have hw' : look fds0 (sys_pipe s.fds i).2.2 = none := by
            have := hw
            rw [hk, if_neg hwin] at this
            exact this
          refine ⟨hr', i, ?_⟩
          intro x
          rw [if_pos h0, look_close, look_close, hlook]
          by_cases hx1 : x = (sys_pipe s.fds i).2.2
          · rw [if_pos hx1, if_neg (fun e => hrw (by rw [← hx1, e])), hx1, hw']
          · rw [if_neg hx1, if_neg hx1]
            by_cases hx2 : x = s.in_fd
            · rw [if_pos hx2, if_neg (fun e => hrin (by rw [← e, hx2])), hx2, hfree]
            · rw [if_neg hx2, hk, if_neg hx2]
      · intro c hc
        have hsp : (spawn_step env pc i s).spawned = s.spawned ++
            [⟨i, pid, child env i pc s.in_fd (sys_pipe s.fds i).2 s.args (sys_pipe s.fds i).1⟩] := by
          rw [hstep]
        rw [hsp] at hc
        rcases List.mem_append.mp hc with hc | hc
        · exact hgood c hc
        · have hceq := List.mem_singleton.mp hc
          subst hceq
          intro file argv t hout
          refine child_write_ends env i pc s.in_fd (sys_pipe s.fds i).2 s.args
            (sys_pipe s.fds i).1 ?_ (fun e => hwin e.symm) file argv t hout
          intro x j hx
          rw [hlook] at hx
          by_cases hx1 : x = (sys_pipe s.fds i).2.2
          · rw [if_pos hx1] at hx
            cases hx
            exact ⟨hi, rfl, hx1⟩
          · rw [if_neg hx1] at hx
            split at hx
            · cases hx
            · exact absurd hx (hnoW x j)
    · have hipc : i = pc := by omega
      have hstep := spawn_step_last env pc i pid s hi hpid
      have hre : (spawn_step env pc i s).returned_early = false := by rw [hstep]; exact hs
      rw [spawn_loop_succ env pc n i s hre]
      apply ih (i + 1) (spawn_step env pc i s) (by omega) hre
      · refine ⟨fun h => absurd h (by omega), fun _ => ?_⟩
        have hfds : (spawn_step env pc i s).fds
            = if s.in_fd ≠ STDIN_FILENO then sys_close s.fds s.in_fd else s.fds := by rw [hstep]
        rw [hfds]
        intro x
        by_cases h0 : s.in_fd = STDIN_FILENO
        · rw [if_neg (by simpa using h0)]
          exact hinv0 h0 x
        · obtain ⟨hfree, k, hk⟩ := hinvN h0
          rw [if_pos h0, look_close, hk]
          by_cases hx : x = s.in_fd
          · rw [if_pos hx, hx, hfree]
          · rw [if_neg hx, if_neg hx]
      · intro c hc
        have hsp : (spawn_step env pc i s).spawned = s.spawned ++
            [⟨i, pid, child env i pc s.in_fd s.fd s.args s.fds⟩] := by
          rw [hstep]
        rw [hsp] at hc
        rcases List.mem_append.mp hc with hc | hc
        · exact hgood c hc
        · have hceq := List.mem_singleton.mp hc
          subst hceq
          intro file argv t hout
          have hall : ∀ x j, look t x = some (FObj.pipeW j) → j = i ∧ x = STDOUT_FILENO := by
            unfold child at hout
            simp only [hi, if_false] at hout
            split at hout
            · rename_i args1 fds3 hred
              split at hout
              · cases hout
              · cases hout
                intro x j hx
                have hx2 := handle_redirection_from_write_ends env _ [] _ _ _ hred x j hx
                exfalso
                by_cases h0 : s.in_fd = STDIN_FILENO
                · rw [if_neg (by simpa using h0)] at hx2
                  exact hnoW x j hx2
                · rw [if_pos h0, look_close, look_dup2] at hx2
                  by_cases hx1 : x = s.in_fd
                  · simp [hx1] at hx2
                  · rw [if_neg hx1] at hx2
                    split at hx2
                    · exact hnoW _ j hx2
                    · exact hnoW x j hx2
            · cases hout
            · cases hout
          exact hall

theorem look_inherited_table (entry : List (Option Nat)) (x j : Nat) :
    look (inherited_table entry) x ≠ some (FObj.pipeR j)
      ∧ look (inherited_table entry) x ≠ some (FObj.pipeW j) := by
  induction entry generalizing x with
  | nil => simp [inherited_table, look_nil]
  | cons a rest ih =>
    cases x with
    | zero => cases a <;> simp [inherited_table, look]
    | succ k => simpa [inherited_table, look] using ih k

/-- C8.  Over per-process descriptor tables, for every pipeline run by a shell
that enters `execute_pipeline` with standard input open (`main` has just read
the line from it), when every `pipe` and `fork` call succeeds: in the table
with which a child reaches `execvp`, a descriptor that refers to the write end
of an internal pipe is standard output and the pipe is the one created for
that child's own stage, so no other process holds it; and on return the
shell's table is, descriptor by descriptor, the table it had on entry, so the
shell holds no read or write end of any pipe. -/
theorem execute_pipeline_descriptors (env : Env) (tokens : List String) (stale : Cells)
    (background : Bool) (entry : List (Option Nat)) (children : List Nat)
    (hp : ∀ i, env.pipe_ok i = true) (hf : ∀ i, (env.fork_pid i).isSome = true)
    (hstdin : look (inherited_table entry) STDIN_FILENO ≠ none) :
    (∀ c ∈ (execute_pipeline env (cells tokens stale) background (inherited_table entry)
          children).spawned,
        ∀ file argv t, c.outcome = Outcome.exec file argv t →
        ∀ x j, look t x = some (FObj.pipeW j) → j = c.stage ∧ x = STDOUT_FILENO)
      ∧ (∀ x, look (execute_pipeline env (cells tokens stale) background (inherited_table entry)
            children).fds x
          = look (inherited_table entry) x)
      ∧ (∀ x j,
          look (execute_pipeline env (cells tokens stale) background (inherited_table entry)
            children).fds x ≠ some (FObj.pipeR j)
          ∧ look (execute_pipeline env (cells tokens stale) background (inherited_table entry)
            children).fds x ≠ some (FObj.pipeW j)) := by
  have hfresh := look_inherited_table entry
  obtain ⟨h1, h2⟩ := spawn_loop_descriptors env (count_pipes (cells tokens stale))
    (inherited_table entry) hp hf hfresh hstdin (count_pipes (cells tokens stale) + 1) 0
    (entry_state (cells tokens stale) (inherited_table entry) children) (by omega) rfl
    ⟨fun _ => ⟨fun _ _ => rfl, fun h => absurd rfl h⟩, fun h => absurd h (by omega)⟩
    (fun c hc => by cases hc)
  rw [execute_pipeline_spawned, execute_pipeline_fds]
  refine ⟨h2, h1, ?_⟩
  intro x j
  rw [h1 x]
  exact hfresh x j

/-- The tables of `ls | wc`, evaluated: the child of stage 0 holds the write
end of pipe 0 as standard output, the child of stage 1 its read end as standard
input, and the shell is back to its three descriptors (descriptors 3 and 4,
used for the pipe, are closed again). -/
theorem execute_pipeline_ls_wc_tables :
    (execute_pipeline env_ok (cells ["ls", "|", "wc"] []) false tty []).spawned.map Child.outcome
        = [Outcome.exec (some "ls") ["ls"]
              [some (FObj.inherited 0), some (FObj.pipeW 0), some (FObj.inherited 2), none, none],
           Outcome.exec (some "wc") ["wc"]
              [some (FObj.pipeR 0), some (FObj.inherited 1), some (FObj.inherited 2), none, none]]
      ∧ (execute_pipeline env_ok (cells ["ls", "|", "wc"] []) false tty []).pipes = [(3, 4)]
      ∧ (execute_pipeline env_ok (cells ["ls", "|", "wc"] []) false tty []).fds
        = [some (FObj.inherited 0), some (FObj.inherited 1), some (FObj.inherited 2),
            none, none] := by
  decide

/-- Witness of `execute_pipeline_descriptors`: `ls | wc > out` run by a shell
with the three standard descriptors open. -/
theorem execute_pipeline_descriptors_witness :
    look (inherited_table [some 0, some 1, some 2]) STDIN_FILENO ≠ none
    ∧ ((∀ c ∈ (execute_pipeline env_ok (cells ["ls", "|", "wc", ">", "out"] []) false
            (inherited_table [some 0, some 1, some 2]) []).spawned,
          ∀ file argv t, c.outcome = Outcome.exec file argv t →
          ∀ x j, look t x = some (FObj.pipeW j) → j = c.stage ∧ x = STDOUT_FILENO)
        ∧ (∀ x, look (execute_pipeline env_ok (cells ["ls", "|", "wc", ">", "out"] []) false
            (inherited_table [some 0, some 1, some 2]) []).fds x
            = look (inherited_table [some 0, some 1, some 2]) x)
        ∧ (∀ x j,
            look (execute_pipeline env_ok (cells ["ls", "|", "wc", ">", "out"] []) false
              (inherited_table [some 0, some 1, some 2]) []).fds x ≠ some (FObj.pipeR j)
            ∧ look (execute_pipeline env_ok (cells ["ls", "|", "wc", ">", "out"] []) false
              (inherited_table [some 0, some 1, some 2]) []).fds x ≠ some (FObj.pipeW j))) :=
  ⟨by decide,
    execute_pipeline_descriptors env_ok ["ls", "|", "wc", ">", "out"] [] false
      [some 0, some 1, some 2] [] (fun _ => rfl) (fun _ => rfl) (by decide)⟩

end TechShell
